import Mathlib

/-!
Shallow embedding of the code-navigation engine (lsp_service.py,
code_browser_api.py): Python string primitives, the context extractor
`get_symbol_context`, the symbol locator `find_symbol_position`, the JSON-RPC
framing of `_send_message`, the response-queue drain pass of `_send_request`,
the open-document bookkeeping of `LspService.open_document` / `shutdown`, and
the workspace-wide aggregation `goto_definition` / `goto_references` /
`find_symbol`.  External effects (file reads, the language-server processes,
`urllib.parse.unquote`, `os.path.relpath`) are passed in as oracle functions;
everything else is translated from the source.
-/

namespace LangNav

/-! ## Python string primitives (ASCII model of str methods used by the code) -/

/-- Python whitespace characters (`str.strip` / `\s`), ASCII fragment. -/
def isPyWs (c : Char) : Bool :=
  c = ' ' || c = '\t' || c = '\n' || c = '\r' || c = Char.ofNat 11 || c = Char.ofNat 12

/-- `s.rstrip()`. -/
def pyRstrip (s : String) : String := ⟨(s.data.reverse.dropWhile isPyWs).reverse⟩

/-- `len(s) - len(s.lstrip())`: number of leading whitespace characters. -/
def indentOf (s : String) : Nat := (s.data.takeWhile isPyWs).length

/-- `not s.strip()`: the line consists of whitespace only. -/
def isBlank (s : String) : Bool := s.data.all isPyWs

/-- `s.startswith(' ' * n)`. -/
def startsWithSpaces (n : Nat) (s : String) : Bool :=
  List.isPrefixOf (List.replicate n ' ') s.data

/-- `s.startswith('\t')`. -/
def startsWithTab (s : String) : Bool :=
  match s.data with
  | [] => false
  | c :: _ => c = '\t'

/-- `s.lstrip().startswith('#')`: the line is a comment line. -/
def isCommentLine (s : String) : Bool :=
  match s.data.dropWhile isPyWs with
  | [] => false
  | c :: _ => c = '#'

/-- Boolean list-prefix test. -/
def isPrefixOfL : List Char → List Char → Bool
  | [], _ => true
  | _ :: _, [] => false
  | a :: as, b :: bs => a = b && isPrefixOfL as bs

/-- Boolean substring test over character lists. -/
def isSubstrL (n : List Char) : List Char → Bool
  | [] => n.isEmpty
  | c :: rest => isPrefixOfL n (c :: rest) || isSubstrL n rest

/-- Python `needle in s` (substring containment). -/
def containsSub (needle s : String) : Bool := isSubstrL needle.data s.data

/-- `s.find(needle)` restricted to the found case: index of first occurrence. -/
def pyFindAux (n : List Char) (i : Nat) : List Char → Option Nat
  | [] => if n.isEmpty then some i else none
  | c :: rest => if isPrefixOfL n (c :: rest) then some i else pyFindAux n (i+1) rest

/-- Python `s.find(needle)`: first occurrence index, `-1` when absent. -/
def pyFind (needle s : String) : Int :=
  match pyFindAux needle.data 0 s.data with
  | some k => (k : Int)
  | none => -1

/-- Decimal digit character. -/
def digitChar (n : Nat) : Char := Char.ofNat (48 + n % 10)

/-- Decimal rendering with a fuel bound (structural, so that the kernel can
evaluate it); `fuel` exceeding the digit count is enough. -/
def natReprAux : Nat → Nat → List Char
  | 0, _ => []
  | fuel + 1, n => if n < 10 then [digitChar n] else natReprAux fuel (n / 10) ++ [digitChar (n % 10)]

/-- Decimal rendering of a natural number, as Python `str(n)`. -/
def natRepr (n : Nat) : List Char := natReprAux (n + 1) n

def natStr (n : Nat) : String := ⟨natRepr n⟩

/-- Python `str(i)` for an int. -/
def intStr : Int → String
  | Int.ofNat n => natStr n
  | Int.negSucc n => "-" ++ natStr (n+1)

/-! ## ContextExtractor: `LspService.get_symbol_context`

The file's lines are passed in as they come from `f.readlines()`, with the
trailing newline removed (every string operation the code performs — `rstrip`,
`lstrip` length difference, `strip` truthiness, `startswith` — is invariant
under that normalization).  A failed `open` is an `Except.error` carrying the
exception message. -/

/-- `f"  \x7bi+1\x7d: \x7blines[i].rstrip()\x7d"`: body-line rendering. -/
def renderBody (n : Nat) (s : String) : String :=
  "  " ++ natStr (n+1) ++ ": " ++ pyRstrip s

/-- `f"→ \x7bi+1\x7d: \x7blines[i].rstrip()\x7d"`: marked target/declaration line. -/
def renderDecl (n : Nat) (s : String) : String :=
  "→ " ++ natStr (n+1) ++ ": " ++ pyRstrip s

/-- Pair each line with its 0-based index, starting at `i`. -/
def enumFrom (i : Nat) : List String → List (Nat × String)
  | [] => []
  | l :: ls => (i, l) :: enumFrom (i+1) ls

/-- The indentation-discovery loop: starting after the declaration line, skip
(and render) blank and comment lines; the first other line fixes
`current_indent` as its leading-whitespace count.  Returns the rendered skipped
lines and `current_indent` (none when the file ends first). -/
def discoverScan : List (Nat × String) → List String × Option Nat
  | [] => ([], none)
  | (n, l) :: rest =>
    if isBlank l || isCommentLine l then
      let r := discoverScan rest
      (renderBody n l :: r.1, r.2)
    else ([], some (indentOf l))

/-- The body-collection loop, restarted at the line after the declaration: stop
at the first line that is non-blank and starts neither with
`' ' * current_indent` nor with a tab; render every line before that. -/
def collectBody (ci : Nat) : List (Nat × String) → List String
  | [] => []
  | (n, l) :: rest =>
    if !isBlank l && !startsWithSpaces ci l && !startsWithTab l then []
    else renderBody n l :: collectBody ci rest

/-- `f"Line \x7bline\x7d is out of range"`. -/
def outOfRangeMsg (line : Int) : String :=
  "Line " ++ intStr line ++ " is out of range"

/-- The non-declaration branch: five lines of context either side of the
target, clamped to the file, the target line marked. -/
def windowRender (t : Nat) (lines : List String) : List String :=
  (((enumFrom 0 lines).drop (t - 5)).take (t + 6 - (t - 5))).map
    (fun p => if p.1 = t then renderDecl p.1 p.2 else renderBody p.1 p.2)

structure ContextResult where
  file : String
  line : Int
  context : List String
deriving Repr, DecidableEq

/-- `LspService.get_symbol_context(file_path, line)`.  `fileLines` is the
outcome of reading the file; `path` stands for `str(abs_path)`. -/
def get_symbol_context (path : String) (fileLines : Except String (List String))
    (line : Int) : ContextResult :=
  match fileLines with
  | Except.error e => ⟨path, line, ["Error: " ++ e]⟩
  | Except.ok lines =>
    if line - 1 < 0 || (lines.length : Int) ≤ line - 1 then
      ⟨path, line, [outOfRangeMsg line]⟩
    else
      let t := (line - 1).toNat
      let L := lines.getD t ""
      if containsSub "def " L || containsSub "class " L then
        let rest := enumFrom (t+1) (lines.drop (t+1))
        let d := discoverScan rest
        match d.2 with
        | none => ⟨path, line, renderDecl t L :: d.1⟩
        | some ci => ⟨path, line, renderDecl t L :: (d.1 ++ collectBody ci rest)⟩
      else
        ⟨path, line, windowRender t lines⟩

/-! ## SymbolLocator: `find_symbol_position`

The identical method appears on both `LspService` and `LanguageServer`.  The
three regex tiers are embedded as decidable position searches; `\w` is modelled
as ASCII alphanumeric or underscore, `\s` as Python whitespace. -/

def isWordChar (c : Char) : Bool := c.isAlphanum || c = '_'

def charAtIsWord (l : List Char) (i : Nat) : Bool :=
  match l.get? i with
  | some c => isWordChar c
  | none => false

/-- Regex `\b` holds between positions `i-1` and `i` (ends count as non-word). -/
def boundaryAt (l : List Char) (i : Nat) : Bool :=
  (match i with
   | 0 => false
   | Nat.succ j => charAtIsWord l j) != charAtIsWord l i

/-- `\b<sym>\b` matches starting at position `i`. -/
def wordMatchAt (sym l : List Char) (i : Nat) : Bool :=
  boundaryAt l i && isPrefixOfL sym (l.drop i) && boundaryAt l (i + sym.length)

/-- `re.search(rf'\b<sym>\b', line).start()`: leftmost whole-word match. -/
def tier3Start (sym l : List Char) : Option Nat :=
  (List.range (l.length + 1)).find? (fun i => wordMatchAt sym l i)

/-- `re.search(rf'\b<kw>\s+<sym>\b', line)` succeeds: some position carries the
keyword at a word boundary, one or more whitespace characters, then the symbol
ending at a word boundary. -/
def declSearch (kw sym l : List Char) : Bool :=
  (List.range (l.length + 1)).any (fun i =>
    boundaryAt l i && isPrefixOfL kw (l.drop i) &&
    (List.range (l.length + 1)).any (fun j =>
      1 ≤ j && i + kw.length + j ≤ l.length &&
      ((l.drop (i + kw.length)).take j).all isPyWs &&
      isPrefixOfL sym (l.drop (i + kw.length + j)) &&
      boundaryAt l (i + kw.length + j + sym.length)))

/-- Per-line dispatch of `find_symbol_position`, with early return. -/
def find_symbol_position_go (sym : String) : Nat → List String → Option (Nat × Int)
  | _, [] => none
  | n, l :: ls =>
    if declSearch "def".data sym.data l.data then some (n, pyFind sym l)
    else if declSearch "class".data sym.data l.data then some (n, pyFind sym l)
    else
      match tier3Start sym.data l.data with
      | some p => some (n, (p : Int))
      | none => find_symbol_position_go sym (n+1) ls

/-- `find_symbol_position(file_path, symbol_name)` over the file's lines:
first line matching a declaration-keyword tier or the whole-word tier; the
column is `line.find(symbol)` for the keyword tiers and `match.start()` for the
whole-word tier. -/
def find_symbol_position (sym : String) (lines : List String) : Option (Nat × Int) :=
  find_symbol_position_go sym 0 lines

/-! ## JSON-RPC framing: `LanguageServer._send_message`

`content = json.dumps(message)` (default `ensure_ascii=True`), then
`header = f"Content-Length: \x7blen(content)\x7d\r\n\r\n"` and both header and
content are written `'utf-8'`-encoded.  The JSON values the service sends hold
nulls, booleans, integers, strings, arrays and string-keyed objects. -/

inductive JValue where
  | null
  | bool (b : Bool)
  | int (n : Int)
  | str (s : String)
  | arr (xs : List JValue)
  | obj (fields : List (String × JValue))
deriving Repr

/-- Lower-case hexadecimal digit. -/
def hexDigit (n : Nat) : Char :=
  if n % 16 < 10 then Char.ofNat (48 + n % 16) else Char.ofNat (87 + n % 16)

/-- Four hexadecimal digits of `n % 65536`. -/
def hex4 (n : Nat) : List Char :=
  [hexDigit (n / 4096), hexDigit (n / 256), hexDigit (n / 16), hexDigit n]

/-- `json.dumps` escaping of one character of a string, with `ensure_ascii`:
short escapes for the two-character sequences, `\u00xx` for other controls,
`\uxxxx` (surrogate pairs above the BMP) for every character outside
`0x20`–`0x7e`, the character itself otherwise. -/
def escChar (c : Char) : List Char :=
  if c = '"' then ['\\', '"']
  else if c = '\\' then ['\\', '\\']
  else if c = '\n' then ['\\', 'n']
  else if c = '\r' then ['\\', 'r']
  else if c = '\t' then ['\\', 't']
  else if c.toNat = 8 then ['\\', 'b']
  else if c.toNat = 12 then ['\\', 'f']
  else if c.toNat < 32 || 127 ≤ c.toNat then
    if c.toNat < 65536 then '\\' :: 'u' :: hex4 c.toNat
    else
      let v := c.toNat - 65536
      ('\\' :: 'u' :: hex4 (55296 + v / 1024)) ++ ('\\' :: 'u' :: hex4 (56320 + v % 1024))
  else [c]

/-- JSON string literal: quoted, characters escaped. -/
def escString (s : String) : List Char :=
  '"' :: (s.data.map escChar).flatten ++ ['"']

/-- Python `str(i)` over the characters of an int. -/
def intRepr : Int → List Char
  | Int.ofNat n => natRepr n
  | Int.negSucc n => '-' :: natRepr (n+1)

mutual

/-- `json.dumps(v)` with the default separators `', '` and `': '`. -/
def dumpsVal : JValue → List Char
  | JValue.null => "null".data
  | JValue.bool true => "true".data
  | JValue.bool false => "false".data
  | JValue.int n => intRepr n
  | JValue.str s => escString s
  | JValue.arr xs => '[' :: dumpsArr xs ++ [']']
  | JValue.obj fs => Char.ofNat 123 :: dumpsObj fs ++ [Char.ofNat 125]

/-- Array elements joined by `', '`. -/
def dumpsArr : List JValue → List Char
  | [] => []
  | x :: rest => dumpsVal x ++ (if rest.isEmpty then [] else ", ".data) ++ dumpsArr rest

/-- Object items `key: value` joined by `', '`. -/
def dumpsObj : List (String × JValue) → List Char
  | [] => []
  | (k, v) :: rest =>
      escString k ++ ": ".data ++ dumpsVal v ++
        (if rest.isEmpty then [] else ", ".data) ++ dumpsObj rest

end

/-- Byte length of one character under UTF-8 encoding. -/
def utf8CharLen (c : Char) : Nat :=
  if c.toNat < 128 then 1
  else if c.toNat < 2048 then 2
  else if c.toNat < 65536 then 3
  else 4

/-- Byte length of the UTF-8 encoding of a character sequence. -/
def utf8Len (l : List Char) : Nat := (l.map utf8CharLen).sum

/-- The `Content-Length` value `_send_message` puts in the header:
`len(content)`, the Python string length of `json.dumps(message)`. -/
def sendMessageHeaderValue (msg : JValue) : Nat := (dumpsVal msg).length

/-- The number of bytes of `content.encode('utf-8')` written after the header. -/
def sendMessageBodyByteCount (msg : JValue) : Nat := utf8Len (dumpsVal msg)

/-! ## Request/response correlation: `LanguageServer._send_request`

One polling pass over the inbound queue: pop messages while the queue is
non-empty; a message whose `id` equals the pending request id is returned at
once (the messages popped before it are in the local `responses` list, which is
then abandoned); when no message matches, every popped message is re-enqueued
in order. -/

structure RpcMsg where
  id : Option Nat
  body : String
deriving Repr, DecidableEq

/-- The drain loop with accumulator `drained` (the local `responses` list).
Returns the matching message (if any) and the queue contents after the pass. -/
def drainPass (rid : Nat) (drained : List RpcMsg) :
    List RpcMsg → Option RpcMsg × List RpcMsg
  | [] => (none, drained)
  | m :: rest =>
    if m.id = some rid then (some m, rest)
    else drainPass rid (drained ++ [m]) rest

/-- One polling pass of `_send_request` over the buffered inbound messages. -/
def sendRequestPass (rid : Nat) (queue : List RpcMsg) : Option RpcMsg × List RpcMsg :=
  drainPass rid [] queue

/-! ## Document lifecycle: `LspService.open_document` / `LspService.shutdown`

`open_documents` is a set of URIs on the service.  `open_document` sends the
`textDocument/didOpen` notification only when the URI is not yet in the set and
the server resolves and the file read succeeds (both folded into `ok`); on
success the URI is added.  `shutdown` shuts every server down and leaves
`open_documents` untouched. -/

/-- One `open_document` call: new open-document set, and whether the didOpen
notification was sent. -/
def open_document (openDocs : List String) (uri : String) (ok : Bool) :
    List String × Bool :=
  if uri ∈ openDocs then (openDocs, false)
  else if ok then (openDocs ++ [uri], true)
  else (openDocs, false)

/-- `LspService.shutdown`: iterates `server.shutdown()`; the
`open_documents` set is not modified. -/
def lsp_shutdown (openDocs : List String) : List String := openDocs

inductive DocEvent where
  | openDoc (uri : String) (ok : Bool)
  | shutdown
deriving Repr, DecidableEq

/-- Run a sequence of open/shutdown events; returns the final open-document
set and the list of URIs for which a didOpen notification was sent. -/
def runDocEvents (openDocs : List String) : List DocEvent → List String × List String
  | [] => (openDocs, [])
  | DocEvent.openDoc uri ok :: evts =>
    let r := open_document openDocs uri ok
    let r2 := runDocEvents r.1 evts
    (r2.1, (if r.2 then [uri] else []) ++ r2.2)
  | DocEvent.shutdown :: evts => runDocEvents (lsp_shutdown openDocs) evts

/-! ## Result assembly: `_process_locations`, `_process_workspace_symbols`,
`CodeBrowserAPI.goto_definition` / `goto_references`, `LspService.find_symbol`

Result dictionaries are association lists of field name to value, mirroring the
dict literals the code builds.  The language servers, `urllib.parse.unquote`
and `os.path.relpath` are oracles supplied through the `Oracle` structure. -/

inductive FieldVal where
  | s (v : String)
  | n (v : Int)
  | ls (v : List String)
deriving Repr, DecidableEq

/-- A result dictionary. -/
abbrev Entry := List (String × FieldVal)

/-- The deduplication key `(loc['file'], loc['line'], loc['column'])`. -/
def locKey (e : Entry) : Option FieldVal × Option FieldVal × Option FieldVal :=
  (List.lookup "file" e, List.lookup "line" e, List.lookup "column" e)

abbrev LocKey := Option FieldVal × Option FieldVal × Option FieldVal

/-- A raw LSP location in the server response: `Location` shape (`uri`),
`LocationLink` shape (`targetUri`), or a dictionary with neither key, which
the processing loop skips. -/
inductive RawLoc where
  | loc (uri : String) (line character : Nat)
  | link (targetUri : String) (line character : Nat)
  | malformed
deriving Repr, DecidableEq

/-- The value a public operation returns: a results list or an error message,
mirroring the one-key dictionaries the code builds. -/
inductive ApiResult where
  | results (rs : List Entry)
  | error (msg : String)
deriving Repr, DecidableEq

/-- One element of a `workspace/symbol` reply: name, numeric kind,
`location.uri`, 0-based `location.range.start.line`. -/
structure WorkspaceSymbol where
  name : String
  kind : Nat
  uri : String
  line : Nat
deriving Repr, DecidableEq

/-- `uri.replace('file://', '')`: removes every occurrence, left to right. -/
def stripFileSchemeAux : Nat → List Char → List Char
  | 0, _ => []
  | _, [] => []
  | fuel + 1, c :: rest =>
    if isPrefixOfL "file://".data (c :: rest) then stripFileSchemeAux fuel (rest.drop 6)
    else c :: stripFileSchemeAux fuel rest

def stripFileScheme (l : List Char) : List Char := stripFileSchemeAux l.length l

/-- Everything external the aggregation layer consults, fixed for one
workspace snapshot: the file index (extension to files), `urllib.parse.unquote`,
`os.path.relpath` against the workspace root (`none` models the `ValueError`
fallback branch), the same without failure for `_process_workspace_symbols`,
file contents for the context extractor, and the per-file / per-extension
language-server answers.  A `none` response stands for any of: no server for
the extension, symbol not found in the file, an empty or timed-out reply, or a
caught per-file exception — every case the scan skips. -/
structure Oracle where
  fileIndex : List (String × List String)
  unquote : String → String
  relpath : String → Option String
  relpathS : String → String
  fileLines : String → Except String (List String)
  defResponse : String → Option (List RawLoc)
  refResponse : String → Option (List RawLoc)
  symResponse : String → Option (List WorkspaceSymbol)

/-- One location's normalization inside `_process_locations`: strip the URI
scheme, percent-decode, 1-base line and column, attach the extracted context,
relativize the path (falling back to the absolute path). -/
def mkLocEntry (o : Oracle) (sym uri : String) (line character : Nat) : Entry :=
  let targetFile := o.unquote ⟨stripFileScheme uri.data⟩
  let line1 : Int := (line : Int) + 1
  let col1 : Int := (character : Int) + 1
  let ctx := get_symbol_context targetFile (o.fileLines targetFile) line1
  let relPath := (o.relpath targetFile).getD targetFile
  [("symbol", FieldVal.s sym), ("file", FieldVal.s relPath),
   ("line", FieldVal.n line1), ("column", FieldVal.n col1),
   ("context", FieldVal.ls ctx.context)]

/-- The per-location step of `_process_locations`; `none` for the skipped
malformed shape. -/
def processLocation (o : Oracle) (sym : String) : RawLoc → Option Entry
  | RawLoc.loc uri line character => some (mkLocEntry o sym uri line character)
  | RawLoc.link targetUri line character => some (mkLocEntry o sym targetUri line character)
  | RawLoc.malformed => none

/-- `_process_locations(locations, symbol_name)`. -/
def process_locations (o : Oracle) (sym : String) (locs : List RawLoc) : ApiResult :=
  if locs.isEmpty then ApiResult.error ("No locations found for '" ++ sym ++ "'")
  else ApiResult.results (locs.filterMap (processLocation o sym))

/-- The entries one file contributes to the definition scan: nothing when the
server is unavailable, the symbol is absent, the reply is empty or the file
errored; else the processed `["results"]` list. -/
def fileDefEntries (o : Oracle) (sym f : String) : List Entry :=
  match o.defResponse f with
  | none => []
  | some locs =>
    if locs.isEmpty then []
    else locs.filterMap (processLocation o sym)

/-- Same for the reference scan (`include_declaration=True`). -/
def fileRefEntries (o : Oracle) (sym f : String) : List Entry :=
  match o.refResponse f with
  | none => []
  | some locs =>
    if locs.isEmpty then []
    else locs.filterMap (processLocation o sym)

/-- All definition entries in file-index scan order. -/
def defStream (o : Oracle) (sym : String) : List Entry :=
  o.fileIndex.flatMap (fun g => g.2.flatMap (fileDefEntries o sym))

/-- All reference entries in file-index scan order. -/
def refStream (o : Oracle) (sym : String) : List Entry :=
  o.fileIndex.flatMap (fun g => g.2.flatMap (fileRefEntries o sym))

/-- The dedup loop of `goto_definition`: `seen_locations` set plus ordered
`results` accumulator. -/
def addUniqueLoop (seen : List LocKey) (acc : List Entry) : List Entry → List Entry
  | [] => acc
  | e :: rest =>
    if locKey e ∈ seen then addUniqueLoop seen acc rest
    else addUniqueLoop (locKey e :: seen) (acc ++ [e]) rest

/-- `CodeBrowserAPI.goto_definition(symbol_name)` before JSON encoding. -/
def goto_definition (o : Oracle) (sym : String) : ApiResult :=
  let results := addUniqueLoop [] [] (defStream o sym)
  if results.isEmpty then ApiResult.error ("No definition found for '" ++ sym ++ "'")
  else ApiResult.results results

/-- The exclusion set built by the first (definition) pass of
`goto_references`. -/
def definitionKeys (o : Oracle) (sym : String) : List LocKey :=
  (defStream o sym).map locKey

/-- The second pass of `goto_references`: keep a reference entry only when its
key is in neither the definition set nor the seen set. -/
def refLoop (defKeys seen : List LocKey) (acc : List Entry) : List Entry → List Entry
  | [] => acc
  | e :: rest =>
    if locKey e ∈ defKeys ∨ locKey e ∈ seen then refLoop defKeys seen acc rest
    else refLoop defKeys (locKey e :: seen) (acc ++ [e]) rest

/-- `CodeBrowserAPI.goto_references(symbol_name)` before JSON encoding: the
definition pass runs first and only feeds the exclusion set. -/
def goto_references (o : Oracle) (sym : String) : ApiResult :=
  let results := refLoop (definitionKeys o sym) [] [] (refStream o sym)
  if results.isEmpty then ApiResult.error ("No references found for '" ++ sym ++ "'")
  else ApiResult.results results

/-- `_symbol_kind_to_string`. -/
def symbol_kind_to_string (kind : Nat) : String :=
  if kind = 1 then "file" else if kind = 2 then "module"
  else if kind = 3 then "namespace" else if kind = 4 then "package"
  else if kind = 5 then "class" else if kind = 6 then "method"
  else if kind = 7 then "property" else if kind = 8 then "field"
  else if kind = 9 then "constructor" else if kind = 10 then "enum"
  else if kind = 11 then "interface" else if kind = 12 then "function"
  else if kind = 13 then "variable" else if kind = 14 then "constant"
  else if kind = 15 then "string" else if kind = 16 then "number"
  else if kind = 17 then "boolean" else if kind = 18 then "array"
  else if kind = 19 then "object" else if kind = 20 then "key"
  else if kind = 21 then "null" else if kind = 22 then "enum member"
  else if kind = 23 then "struct" else if kind = 24 then "event"
  else if kind = 25 then "operator" else if kind = 26 then "type parameter"
  else "symbol"

/-- One entry of `_process_workspace_symbols`: name, kind string, relative
path, 1-based line — and nothing else.  (The `os.path.relpath` call here has no
exception handler; `relpathS` is its value on the successful path.) -/
def processWorkspaceSymbol (o : Oracle) (s : WorkspaceSymbol) : Entry :=
  let filePath : String := ⟨stripFileScheme s.uri.data⟩
  [("name", FieldVal.s s.name), ("kind", FieldVal.s (symbol_kind_to_string s.kind)),
   ("file", FieldVal.s (o.relpathS filePath)), ("line", FieldVal.n ((s.line : Int) + 1))]

/-- `LspService.find_symbol(symbol_name)`: one workspace-symbol query per
extension group that has files and a server; the error value exactly when no
group produced entries. -/
def find_symbol (o : Oracle) (sym : String) : ApiResult :=
  let results := o.fileIndex.flatMap (fun g =>
    if g.2.isEmpty then []
    else
      match o.symResponse g.1 with
      | none => []
      | some syms =>
        if syms.isEmpty then []
        else syms.map (processWorkspaceSymbol o))
  if results.isEmpty then ApiResult.error ("No symbols found for '" ++ sym ++ "'")
  else ApiResult.results results

/-! ## Supporting lemmas -/

theorem drainPass_no_match (rid : Nat) :
    ∀ (q acc : List RpcMsg), (∀ x ∈ q, x.id ≠ some rid) →
      drainPass rid acc q = (none, acc ++ q) := by
  intro q
  induction q with
  | nil => intro acc _; simp [drainPass]
  | cons m rest ih =>
    intro acc h
    have hm : ¬ (m.id = some rid) := h m (List.mem_cons_self m rest)
    have hrest : ∀ x ∈ rest, x.id ≠ some rid := fun x hx => h x (List.mem_cons_of_mem m hx)
    simp only [drainPass, if_neg hm, ih (acc ++ [m]) hrest, List.append_assoc,
      List.singleton_append]

theorem drainPass_match (rid : Nat) (m : RpcMsg) (hm : m.id = some rid) :
    ∀ (pre post acc : List RpcMsg), (∀ x ∈ pre, x.id ≠ some rid) →
      drainPass rid acc (pre ++ m :: post) = (some m, post) := by
  intro pre
  induction pre with
  | nil => intro post acc _; simp [drainPass, hm]
  | cons p rest ih =>
    intro post acc h
    have hp : ¬ (p.id = some rid) := h p (List.mem_cons_self p rest)
    have hrest : ∀ x ∈ rest, x.id ≠ some rid := fun x hx => h x (List.mem_cons_of_mem p hx)
    simp only [List.cons_append, drainPass, if_neg hp]
    exact ih post (acc ++ [p]) hrest

theorem runDocEvents_count_zero (uri : String) :
    ∀ (evts : List DocEvent) (s : List String), uri ∈ s →
      ((runDocEvents s evts).2.count uri) = 0 := by
  intro evts
  induction evts with
  | nil => intro s _; simp [runDocEvents]
  | cons e rest ih =>
    intro s hs
    cases e with
    | shutdown => simpa [runDocEvents, lsp_shutdown] using ih s hs
    | openDoc u ok =>
      by_cases hu : u ∈ s
      · simp [runDocEvents, open_document, hu, ih s hs]
      · have hne : (u == uri) = false := by
          simp only [beq_eq_false_iff_ne, ne_eq]
          intro h; exact hu (h ▸ hs)
        cases ok with
        | true =>
          have hs' : uri ∈ s ++ [u] := List.mem_append_left _ hs
          simp [runDocEvents, open_document, hu, List.count_cons, hne, ih _ hs']
        | false => simp [runDocEvents, open_document, hu, ih s hs]

theorem runDocEvents_count_le_one (uri : String) :
    ∀ (evts : List DocEvent) (s : List String),
      ((runDocEvents s evts).2.count uri) ≤ 1 := by
  intro evts
  induction evts with
  | nil => intro s; simp [runDocEvents]
  | cons e rest ih =>
    intro s
    cases e with
    | shutdown => simpa [runDocEvents, lsp_shutdown] using ih s
    | openDoc u ok =>
      by_cases hu : u ∈ s
      · simp [runDocEvents, open_document, hu, ih s]
      · cases ok with
        | true =>
          by_cases huu : u = uri
          · subst huu
            have hz : ((runDocEvents (s ++ [u]) rest).2.count u) = 0 :=
              runDocEvents_count_zero u rest (s ++ [u]) (by simp)
            simp [runDocEvents, open_document, hu, List.count_cons, hz]
          · have hne : (u == uri) = false := by simp [huu]
            simp [runDocEvents, open_document, hu, List.count_cons, hne, ih (s ++ [u])]
        | false => simp [runDocEvents, open_document, hu, ih s]

theorem charOfNat_small_ascii : ∀ k < 123, (Char.ofNat k).toNat < 128 := by decide

theorem hexDigit_ascii (n : Nat) : (hexDigit n).toNat < 128 := by
  unfold hexDigit
  split
  · exact charOfNat_small_ascii _ (by omega)
  · exact charOfNat_small_ascii _ (by omega)

theorem hex4_ascii (n : Nat) : ∀ c ∈ hex4 n, c.toNat < 128 := by
  intro c hc
  simp only [hex4, List.mem_cons, List.not_mem_nil, or_false] at hc
  rcases hc with rfl | rfl | rfl | rfl <;> exact hexDigit_ascii _

theorem digitChar_ascii (n : Nat) : (digitChar n).toNat < 128 := by
  unfold digitChar
  exact charOfNat_small_ascii _ (by omega)

theorem natReprAux_ascii : ∀ (fuel n : Nat), ∀ c ∈ natReprAux fuel n, c.toNat < 128 := by
  intro fuel
  induction fuel with
  | zero => intro n c hc; simp [natReprAux] at hc
  | succ fuel ih =>
    intro n c hc
    simp only [natReprAux] at hc
    split at hc
    · simp only [List.mem_singleton] at hc
      exact hc ▸ digitChar_ascii n
    · rcases List.mem_append.mp hc with hc | hc
      · exact ih _ c hc
      · simp only [List.mem_singleton] at hc
        exact hc ▸ digitChar_ascii _

theorem natRepr_ascii (n : Nat) : ∀ c ∈ natRepr n, c.toNat < 128 :=
  natReprAux_ascii (n + 1) n

theorem intRepr_ascii (i : Int) : ∀ c ∈ intRepr i, c.toNat < 128 := by
  cases i with
  | ofNat n => exact natRepr_ascii n
  | negSucc n =>
    intro c hc
    simp only [intRepr, List.mem_cons] at hc
    rcases hc with rfl | hc
    · decide
    · exact natRepr_ascii _ c hc

theorem escChar_ascii (c : Char) : ∀ d ∈ escChar c, d.toNat < 128 := by
  intro d hd
  unfold escChar at hd
  split_ifs at hd with h1 h2 h3 h4 h5 h6 h7 h8 h9
  · simp only [List.mem_cons, List.not_mem_nil, or_false] at hd
    rcases hd with rfl | rfl <;> decide
  · simp only [List.mem_cons, List.not_mem_nil, or_false] at hd
    rcases hd with rfl | rfl <;> decide
  · simp only [List.mem_cons, List.not_mem_nil, or_false] at hd
    rcases hd with rfl | rfl <;> decide
  · simp only [List.mem_cons, List.not_mem_nil, or_false] at hd
    rcases hd with rfl | rfl <;> decide
  · simp only [List.mem_cons, List.not_mem_nil, or_false] at hd
    rcases hd with rfl | rfl <;> decide
  · simp only [List.mem_cons, List.not_mem_nil, or_false] at hd
    rcases hd with rfl | rfl <;> decide
  · simp only [List.mem_cons, List.not_mem_nil, or_false] at hd
    rcases hd with rfl | rfl <;> decide
  · simp only [List.mem_cons] at hd
    rcases hd with rfl | hd
    · decide
    rcases hd with rfl | hd
    · decide
    exact hex4_ascii _ d hd
  · simp only [List.mem_append, List.mem_cons] at hd
    rcases hd with (rfl | rfl | hd) | (rfl | rfl | hd)
    · decide
    · decide
    · exact hex4_ascii _ d hd
    · decide
    · decide
    · exact hex4_ascii _ d hd
  · simp only [List.mem_singleton] at hd
    subst hd
    simp only [Bool.or_eq_true, decide_eq_true_eq, not_or, not_lt, not_le] at h8
    omega

theorem escString_ascii (s : String) : ∀ c ∈ escString s, c.toNat < 128 := by
  intro c hc
  simp only [escString, List.mem_cons, List.mem_append, List.mem_singleton,
    List.not_mem_nil, or_false] at hc
  rcases hc with (rfl | hc) | rfl
  · decide
  · rcases List.mem_flatten.mp hc with ⟨l, hl, hcl⟩
    rcases List.mem_map.mp hl with ⟨d, _, rfl⟩
    exact escChar_ascii d c hcl
  · decide

mutual

theorem dumpsVal_ascii (v : JValue) : ∀ c ∈ dumpsVal v, c.toNat < 128 := by
  cases v with
  | null => decide
  | bool b => cases b <;> decide
  | int n => exact intRepr_ascii n
  | str s => exact escString_ascii s
  | arr xs =>
    intro c hc
    simp only [dumpsVal, List.mem_cons, List.mem_append, List.mem_singleton,
      List.not_mem_nil, or_false] at hc
    rcases hc with (rfl | hc) | rfl
    · decide
    · exact dumpsArr_ascii xs c hc
    · decide
  | obj fs =>
    intro c hc
    simp only [dumpsVal, List.mem_cons, List.mem_append, List.mem_singleton,
      List.not_mem_nil, or_false] at hc
    rcases hc with (rfl | hc) | rfl
    · decide
    · exact dumpsObj_ascii fs c hc
    · decide

theorem dumpsArr_ascii (xs : List JValue) : ∀ c ∈ dumpsArr xs, c.toNat < 128 := by
  cases xs with
  | nil => intro c hc; simp [dumpsArr] at hc
  | cons x rest =>
    intro c hc
    simp only [dumpsArr, List.mem_append] at hc
    rcases hc with (hc | hc) | hc
    · exact dumpsVal_ascii x c hc
    · split at hc
      · simp at hc
      · simp only [List.mem_cons, List.not_mem_nil, or_false] at hc
        rcases hc with rfl | rfl <;> decide
    · exact dumpsArr_ascii rest c hc

theorem dumpsObj_ascii (fs : List (String × JValue)) : ∀ c ∈ dumpsObj fs, c.toNat < 128 := by
  cases fs with
  | nil => intro c hc; simp [dumpsObj] at hc
  | cons kv rest =>
    intro c hc
    obtain ⟨k, v⟩ := kv
    simp only [dumpsObj, List.mem_append] at hc
    rcases hc with (((hc | hc) | hc) | hc) | hc
    · exact escString_ascii k c hc
    · simp only [List.mem_cons, List.not_mem_nil, or_false] at hc
      rcases hc with rfl | rfl <;> decide
    · exact dumpsVal_ascii v c hc
    · split at hc
      · simp at hc
      · simp only [List.mem_cons, List.not_mem_nil, or_false] at hc
        rcases hc with rfl | rfl <;> decide
    · exact dumpsObj_ascii rest c hc

end

theorem utf8Len_eq_length_of_ascii :
    ∀ (l : List Char), (∀ c ∈ l, c.toNat < 128) → utf8Len l = l.length := by
  intro l
  induction l with
  | nil => intro _; rfl
  | cons c rest ih =>
    intro h
    have hc : utf8CharLen c = 1 := by
      unfold utf8CharLen
      rw [if_pos (h c (List.mem_cons_self c rest))]
    simp only [utf8Len, List.map_cons, List.sum_cons, hc] at *
    rw [ih (fun d hd => h d (List.mem_cons_of_mem c hd))]
    simp [List.length_cons, Nat.add_comm]

/-- Specification-side first-encounter deduplication: keep an entry exactly
when its key did not occur earlier in the stream, in stream order. -/
def firstOccur : List Entry → List Entry
  | [] => []
  | e :: rest => e :: firstOccur (rest.filter (fun x => locKey x ≠ locKey e))
termination_by l => l.length
decreasing_by
  have := List.length_filter_le (fun x => decide (locKey x ≠ locKey e)) rest
  simp only [List.length_cons]
  omega

theorem addUniqueLoop_append_acc :
    ∀ (s : List Entry) (seen : List LocKey) (acc : List Entry),
      addUniqueLoop seen acc s = acc ++ addUniqueLoop seen [] s := by
  intro s
  induction s with
  | nil => intro seen acc; simp [addUniqueLoop]
  | cons e rest ih =>
    intro seen acc
    by_cases h : locKey e ∈ seen
    · simp only [addUniqueLoop, if_pos h]
      exact ih seen acc
    · simp only [addUniqueLoop, if_neg h]
      rw [ih _ (acc ++ [e]), ih _ ([] ++ [e])]
      simp

theorem filter_notin_cons (rest : List Entry) (k : LocKey) (seen : List LocKey) :
    rest.filter (fun x => locKey x ∉ k :: seen)
      = (rest.filter (fun x => locKey x ∉ seen)).filter (fun x => locKey x ≠ k) := by
  induction rest with
  | nil => rfl
  | cons y ys ih =>
    by_cases h1 : locKey y = k
    · subst h1
      by_cases h2 : locKey y ∈ seen <;> simp [List.filter_cons, h2, ih]
    · by_cases h2 : locKey y ∈ seen <;> simp [List.filter_cons, h1, h2, ih]

theorem addUniqueLoop_eq_firstOccur :
    ∀ (n : Nat) (s : List Entry), s.length ≤ n → ∀ (seen : List LocKey),
      addUniqueLoop seen [] s = firstOccur (s.filter (fun e => locKey e ∉ seen)) := by
  intro n
  induction n with
  | zero =>
    intro s hs seen
    have : s = [] := List.eq_nil_of_length_eq_zero (by omega)
    subst this
    simp [addUniqueLoop, firstOccur]
  | succ n ih =>
    intro s hs seen
    match s with
    | [] => simp [addUniqueLoop, firstOccur]
    | e :: rest =>
      have hlen : rest.length ≤ n := by
        simp only [List.length_cons] at hs; omega
      by_cases h : locKey e ∈ seen
      · rw [List.filter_cons_of_neg (by simp [h])]
        simp only [addUniqueLoop, if_pos h]
        exact ih rest hlen seen
      · rw [List.filter_cons_of_pos (by simp [h])]
        simp only [addUniqueLoop, if_neg h]
        rw [addUniqueLoop_append_acc rest (locKey e :: seen) ([] ++ [e])]
        rw [ih rest hlen (locKey e :: seen)]
        rw [filter_notin_cons rest (locKey e) seen]
        simp [firstOccur]

theorem mem_addUniqueLoop :
    ∀ (s : List Entry) (seen : List LocKey) (acc : List Entry) (e : Entry),
      e ∈ addUniqueLoop seen acc s → e ∈ acc ∨ e ∈ s := by
  intro s
  induction s with
  | nil => intro seen acc e h; simp [addUniqueLoop] at h; exact Or.inl h
  | cons x rest ih =>
    intro seen acc e h
    simp only [addUniqueLoop] at h
    split at h
    · rcases ih _ _ _ h with h | h
      · exact Or.inl h
      · exact Or.inr (List.mem_cons_of_mem x h)
    · rcases ih _ _ _ h with h | h
      · rcases List.mem_append.mp h with h | h
        · exact Or.inl h
        · simp only [List.mem_singleton] at h
          exact Or.inr (h ▸ List.mem_cons_self x rest)
      · exact Or.inr (List.mem_cons_of_mem x h)

theorem mem_refLoop_key_not_def :
    ∀ (s : List Entry) (defKeys seen : List LocKey) (acc : List Entry) (e : Entry),
      (∀ x ∈ acc, locKey x ∉ defKeys) → e ∈ refLoop defKeys seen acc s →
        locKey e ∉ defKeys := by
  intro s
  induction s with
  | nil =>
    intro defKeys seen acc e hacc h
    simp only [refLoop] at h
    exact hacc e h
  | cons x rest ih =>
    intro defKeys seen acc e hacc h
    simp only [refLoop] at h
    split at h
    · exact ih _ _ _ _ hacc h
    · rename_i hcond
      have hx : locKey x ∉ defKeys := by
        intro hmem
        exact hcond (by simp [hmem])
      refine ih _ _ _ _ ?_ h
      intro y hy
      rcases List.mem_append.mp hy with hy | hy
      · exact hacc y hy
      · simp only [List.mem_singleton] at hy
        exact hy ▸ hx

theorem refLoop_eq_addUniqueLoop_filter :
    ∀ (s : List Entry) (defKeys seen : List LocKey) (acc : List Entry),
      refLoop defKeys seen acc s
        = addUniqueLoop seen acc (s.filter (fun e => locKey e ∉ defKeys)) := by
  intro s
  induction s with
  | nil => intro defKeys seen acc; simp [refLoop, addUniqueLoop]
  | cons x rest ih =>
    intro defKeys seen acc
    by_cases hdef : locKey x ∈ defKeys
    · rw [List.filter_cons_of_neg (by simp [hdef])]
      rw [show refLoop defKeys seen acc (x :: rest) = refLoop defKeys seen acc rest from by
        simp only [refLoop, if_pos (Or.inl hdef : locKey x ∈ defKeys ∨ locKey x ∈ seen)]]
      exact ih defKeys seen acc
    · rw [List.filter_cons_of_pos (by simp [hdef])]
      by_cases hseen : locKey x ∈ seen
      · rw [show refLoop defKeys seen acc (x :: rest) = refLoop defKeys seen acc rest from by
          simp only [refLoop, if_pos (Or.inr hseen : locKey x ∈ defKeys ∨ locKey x ∈ seen)]]
        simp only [addUniqueLoop, if_pos hseen]
        exact ih defKeys seen acc
      · have hn : ¬ (locKey x ∈ defKeys ∨ locKey x ∈ seen) := by
          intro hc; rcases hc with hc | hc
          · exact hdef hc
          · exact hseen hc
        rw [show refLoop defKeys seen acc (x :: rest)
              = refLoop defKeys (locKey x :: seen) (acc ++ [x]) rest from by
          simp only [refLoop, if_neg hn]]
        simp only [addUniqueLoop, if_neg hseen]
        exact ih defKeys (locKey x :: seen) (acc ++ [x])

theorem firstOccur_subset :
    ∀ (n : Nat) (s : List Entry), s.length ≤ n → ∀ e ∈ firstOccur s, e ∈ s := by
  intro n
  induction n with
  | zero =>
    intro s hs e he
    have : s = [] := List.eq_nil_of_length_eq_zero (by omega)
    subst this
    simpa [firstOccur] using he
  | succ n ih =>
    intro s hs e he
    match s with
    | [] => simpa [firstOccur] using he
    | x :: rest =>
      simp only [firstOccur, List.mem_cons] at he
      rcases he with rfl | he
      · exact List.mem_cons_self e rest
      · have hlen : (rest.filter (fun y => locKey y ≠ locKey x)).length ≤ n := by
          have := List.length_filter_le (fun y => decide (locKey y ≠ locKey x)) rest
          simp only [List.length_cons] at hs
          omega
        have := ih _ hlen e he
        exact List.mem_cons_of_mem x (List.mem_of_mem_filter this)

theorem firstOccur_keys_nodup :
    ∀ (n : Nat) (s : List Entry), s.length ≤ n → ((firstOccur s).map locKey).Nodup := by
  intro n
  induction n with
  | zero =>
    intro s hs
    have : s = [] := List.eq_nil_of_length_eq_zero (by omega)
    subst this
    simp [firstOccur]
  | succ n ih =>
    intro s hs
    match s with
    | [] => simp [firstOccur]
    | x :: rest =>
      have hlen : (rest.filter (fun y => locKey y ≠ locKey x)).length ≤ n := by
        have := List.length_filter_le (fun y => decide (locKey y ≠ locKey x)) rest
        simp only [List.length_cons] at hs
        omega
      simp only [firstOccur, List.map_cons, List.nodup_cons]
      constructor
      · intro hmem
        rcases List.mem_map.mp hmem with ⟨y, hy, hkey⟩
        have hy' := firstOccur_subset _ _ (Nat.le_refl _) y hy
        have := List.of_mem_filter hy'
        simp only [decide_eq_true_eq] at this
        exact this hkey
      · exact ih _ hlen

/-- A line satisfies some tier of the symbol locator: the `def` keyword tier,
the `class` keyword tier, or the whole-word tier. -/
def lineMatches (sym l : String) : Bool :=
  declSearch "def".data sym.data l.data || declSearch "class".data sym.data l.data ||
    (tier3Start sym.data l.data).isSome

/-- The column the locator reports for a matching line: `line.find(symbol)`
(first substring occurrence) for the two keyword tiers, the leftmost
whole-word match start for the third tier. -/
def colFor (sym l : String) : Int :=
  if declSearch "def".data sym.data l.data then pyFind sym l
  else if declSearch "class".data sym.data l.data then pyFind sym l
  else
    match tier3Start sym.data l.data with
    | some p => (p : Int)
    | none => -1

theorem find_symbol_position_go_spec (sym : String) :
    ∀ (ls : List String) (n : Nat),
      (find_symbol_position_go sym n ls = none ↔
        ∀ l ∈ ls, lineMatches sym l = false) ∧
      (∀ k c, find_symbol_position_go sym n ls = some (k, c) →
        n ≤ k ∧ ∃ l, ls.get? (k - n) = some l ∧ lineMatches sym l = true ∧
          (∀ j, j < k - n → ∀ l', ls.get? j = some l' → lineMatches sym l' = false) ∧
          c = colFor sym l) := by
  intro ls
  induction ls with
  | nil =>
    intro n
    constructor
    · simp [find_symbol_position_go]
    · intro k c h
      simp [find_symbol_position_go] at h
  | cons l rest ih =>
    intro n
    by_cases h1 : declSearch "def".data sym.data l.data = true
    · constructor
      · constructor
        · intro h
          rw [show find_symbol_position_go sym n (l :: rest)
              = some (n, pyFind sym l) from by
            simp [find_symbol_position_go, h1]] at h
          cases h
        · intro h
          have := h l (List.mem_cons_self _ _)
          simp [lineMatches, h1] at this
      · intro k c h
        rw [show find_symbol_position_go sym n (l :: rest)
            = some (n, pyFind sym l) from by
          simp [find_symbol_position_go, h1]] at h
        injection h with h
        injection h with hk hc
        subst hk
        refine ⟨Nat.le_refl n, l, ?_, ?_, ?_, ?_⟩
        · simp
        · simp [lineMatches, h1]
        · intro j hj; omega
        · rw [← hc]; simp [colFor, h1]
    · by_cases h2 : declSearch "class".data sym.data l.data = true
      · constructor
        · constructor
          · intro h
            rw [show find_symbol_position_go sym n (l :: rest)
                = some (n, pyFind sym l) from by
              simp [find_symbol_position_go, h1, h2]] at h
            cases h
          · intro h
            have := h l (List.mem_cons_self _ _)
            simp [lineMatches, h2] at this
        · intro k c h
          rw [show find_symbol_position_go sym n (l :: rest)
              = some (n, pyFind sym l) from by
            simp [find_symbol_position_go, h1, h2]] at h
          injection h with h
          injection h with hk hc
          subst hk
          refine ⟨Nat.le_refl n, l, ?_, ?_, ?_, ?_⟩
          · simp
          · simp [lineMatches, h2]
          · intro j hj; omega
          · rw [← hc]; simp [colFor, h1, h2]
      · cases h3 : tier3Start sym.data l.data with
        | some p =>
          constructor
          · constructor
            · intro h
              rw [show find_symbol_position_go sym n (l :: rest)
                  = some (n, (p : Int)) from by
                simp [find_symbol_position_go, h1, h2, h3]] at h
              cases h
            · intro h
              have := h l (List.mem_cons_self _ _)
              simp [lineMatches, h3] at this
          · intro k c h
            rw [show find_symbol_position_go sym n (l :: rest)
                = some (n, (p : Int)) from by
              simp [find_symbol_position_go, h1, h2, h3]] at h
            injection h with h
            injection h with hk hc
            subst hk
            refine ⟨Nat.le_refl n, l, ?_, ?_, ?_, ?_⟩
            · simp
            · simp [lineMatches, h3]
            · intro j hj; omega
            · rw [← hc]; simp [colFor, h1, h2, h3]
        | none =>
          have hstep : find_symbol_position_go sym n (l :: rest)
              = find_symbol_position_go sym (n+1) rest := by
            simp [find_symbol_position_go, h1, h2, h3]
          have hlm : lineMatches sym l = false := by
            simp [lineMatches, h1, h2, h3]
          constructor
          · rw [hstep, (ih (n+1)).1]
            constructor
            · intro h l' hl'
              rcases List.mem_cons.mp hl' with rfl | hl'
              · exact hlm
              · exact h l' hl'
            · intro h l' hl'
              exact h l' (List.mem_cons_of_mem l hl')
          · intro k c h
            rw [hstep] at h
            obtain ⟨hnk, l₀, hget, hmatch, hbefore, hcol⟩ := (ih (n+1)).2 k c h
            have hk : n ≤ k := by omega
            have hsub : k - n = (k - (n+1)) + 1 := by omega
            refine ⟨hk, l₀, ?_, hmatch, ?_, hcol⟩
            · rw [hsub]
              simpa using hget
            · intro j hj l' hl'
              match j with
              | 0 =>
                simp only [List.get?_cons_zero, Option.some.injEq] at hl'
                exact hl' ▸ hlm
              | Nat.succ j' =>
                rw [List.get?_cons_succ] at hl'
                refine hbefore j' (by omega) l' hl'

/-- The line's leading whitespace consists of spaces only. -/
def leadingAllSpaces (s : String) : Bool :=
  (s.data.takeWhile isPyWs).all (fun c => c = ' ')

/-- The body-collection loop keeps this line (does not break at it). -/
def keepLine (ci : Nat) (s : String) : Bool :=
  isBlank s || startsWithSpaces ci s || startsWithTab s

/-- The stopping condition named by the claim: a non-blank line whose
indentation is strictly shallower than the first body line's. -/
def stopLine (ci : Nat) (s : String) : Bool :=
  !isBlank s && decide (indentOf s < ci)

/-- Renders lines with consecutive indices starting at `i`. -/
def mapRenderFrom (i : Nat) : List String → List String
  | [] => []
  | s :: rest => renderBody i s :: mapRenderFrom (i+1) rest

/-- Index (counting from `i`) of the first non-blank line with indentation
strictly below `ci`. -/
def firstStopIdx (ci i : Nat) : List String → Option Nat
  | [] => none
  | s :: rest => if stopLine ci s then some i else firstStopIdx ci (i+1) rest

/-- Decimal digits back to the number. -/
def reprToNat (l : List Char) : Nat :=
  l.foldl (fun a c => a * 10 + (c.toNat - 48)) 0

theorem charOfNat_small_eq : ∀ k < 123, (Char.ofNat k).toNat = k := by decide

theorem natReprAux_digits :
    ∀ (fuel n : Nat), ∀ c ∈ natReprAux fuel n, 48 ≤ c.toNat ∧ c.toNat ≤ 57 := by
  intro fuel
  induction fuel with
  | zero => intro n c hc; simp [natReprAux] at hc
  | succ fuel ih =>
    intro n c hc
    simp only [natReprAux] at hc
    split at hc
    · simp only [List.mem_singleton] at hc
      subst hc
      unfold digitChar
      rw [charOfNat_small_eq _ (by omega)]
      omega
    · rcases List.mem_append.mp hc with hc | hc
      · exact ih _ c hc
      · simp only [List.mem_singleton] at hc
        subst hc
        unfold digitChar
        rw [charOfNat_small_eq _ (by omega)]
        omega

theorem reprToNat_natReprAux :
    ∀ (fuel n : Nat), n < 10 ^ fuel → reprToNat (natReprAux fuel n) = n := by
  intro fuel
  induction fuel with
  | zero =>
    intro n h
    rw [Nat.pow_zero] at h
    have hn : n = 0 := by omega
    subst hn
    rfl
  | succ fuel ih =>
    intro n h
    simp only [natReprAux]
    split
    · rename_i h10
      show reprToNat [digitChar n] = n
      unfold reprToNat digitChar
      simp only [List.foldl_cons, List.foldl_nil]
      rw [charOfNat_small_eq _ (by omega)]
      omega
    · rename_i h10
      have hdiv : n / 10 < 10 ^ fuel := by
        rw [Nat.pow_succ] at h
        exact (Nat.div_lt_iff_lt_mul (by omega)).mpr h
      have hrec := ih (n / 10) hdiv
      unfold reprToNat at hrec ⊢
      rw [List.foldl_append]
      rw [hrec]
      simp only [List.foldl_cons, List.foldl_nil]
      unfold digitChar
      rw [charOfNat_small_eq _ (by omega)]
      omega

theorem natRepr_inj : ∀ (a b : Nat), natRepr a = natRepr b → a = b := by
  intro a b h
  have ha : a < 10 ^ (a + 1) := by
    calc a < 10 ^ a := Nat.lt_pow_self (by norm_num) a
    _ ≤ 10 ^ (a + 1) := Nat.pow_le_pow_right (by norm_num) (by omega)
  have hb : b < 10 ^ (b + 1) := by
    calc b < 10 ^ b := Nat.lt_pow_self (by norm_num) b
    _ ≤ 10 ^ (b + 1) := Nat.pow_le_pow_right (by norm_num) (by omega)
  have h1 := reprToNat_natReprAux (a + 1) a ha
  have h2 := reprToNat_natReprAux (b + 1) b hb
  unfold natRepr at h
  rw [← h1, ← h2, h]

theorem natRepr_le57 : ∀ (n : Nat), ∀ c ∈ natRepr n, c.toNat ≤ 57 :=
  fun n c hc => (natReprAux_digits (n + 1) n c hc).2

theorem colon_split :
    ∀ (A B xs ys : List Char),
      (∀ c ∈ A, c.toNat ≤ 57) → (∀ c ∈ B, c.toNat ≤ 57) →
      A ++ ':' :: xs = B ++ ':' :: ys → A = B ∧ xs = ys := by
  intro A
  induction A with
  | nil =>
    intro B xs ys _ hB h
    cases B with
    | nil =>
      simp only [List.nil_append, List.cons.injEq] at h
      exact ⟨rfl, h.2⟩
    | cons b bs =>
      simp only [List.nil_append, List.cons_append, List.cons.injEq] at h
      have hb := hB b (List.mem_cons_self _ _)
      rw [← h.1] at hb
      exact absurd hb (by decide)
  | cons a as ih =>
    intro B xs ys hA hB h
    cases B with
    | nil =>
      simp only [List.cons_append, List.nil_append, List.cons.injEq] at h
      have ha := hA a (List.mem_cons_self _ _)
      rw [h.1] at ha
      exact absurd ha (by decide)
    | cons b bs =>
      simp only [List.cons_append, List.cons.injEq] at h
      obtain ⟨hab, h2⟩ := h
      obtain ⟨h3, h4⟩ := ih bs xs ys
        (fun c hc => hA c (List.mem_cons_of_mem _ hc))
        (fun c hc => hB c (List.mem_cons_of_mem _ hc)) h2
      exact ⟨by rw [hab, h3], h4⟩

theorem natStr_data (n : Nat) : (natStr n).data = natRepr n := rfl

theorem renderBody_inj_idx (n m : Nat) (s s' : String)
    (h : renderBody n s = renderBody m s') : n = m := by
  have hd := congrArg String.data h
  simp only [renderBody, String.data_append, natStr_data] at hd
  simp only [List.cons_append, List.nil_append, List.cons.injEq, List.append_assoc] at hd
  obtain ⟨-, -, hd⟩ := hd
  have := colon_split (natRepr (n+1)) (natRepr (m+1)) (' ' :: (pyRstrip s).data)
    (' ' :: (pyRstrip s').data) (natRepr_le57 (n+1)) (natRepr_le57 (m+1)) (by simpa using hd)
  have := natRepr_inj (n+1) (m+1) this.1
  omega

theorem renderDecl_ne_renderBody (n m : Nat) (s s' : String) :
    renderDecl n s ≠ renderBody m s' := by
  intro h
  have hd := congrArg String.data h
  simp only [renderDecl, renderBody, String.data_append, natStr_data] at hd
  simp only [List.cons_append, List.nil_append, List.cons.injEq, List.append_assoc] at hd
  exact absurd hd.1 (by decide)

theorem dropWhile_ne_nil_of_not_all :
    ∀ (l : List Char), l.all isPyWs = false → l.dropWhile isPyWs ≠ [] := by
  intro l
  induction l with
  | nil => intro h; simp at h
  | cons c rest ih =>
    intro h
    by_cases hc : isPyWs c = true
    · rw [List.dropWhile_cons_of_pos hc]
      apply ih
      simp only [List.all_cons, hc, Bool.true_and] at h
      exact h
    · rw [List.dropWhile_cons_of_neg hc]
      simp

theorem sws_of_le_indent :
    ∀ (l : List Char) (ci : Nat),
      (l.takeWhile isPyWs).all (fun c => c = ' ') = true →
      ci ≤ (l.takeWhile isPyWs).length →
      List.isPrefixOf (List.replicate ci ' ') l = true := by
  intro l
  induction l with
  | nil =>
    intro ci _ hle
    simp only [List.takeWhile_nil, List.length_nil, Nat.le_zero] at hle
    subst hle
    rfl
  | cons c rest ih =>
    intro ci hall hle
    cases ci with
    | zero => rfl
    | succ k =>
      by_cases hws : isPyWs c = true
      · rw [List.takeWhile_cons_of_pos hws] at hall hle
        simp only [List.all_cons, Bool.and_eq_true, decide_eq_true_eq] at hall
        obtain ⟨hc, hall⟩ := hall
        simp only [List.length_cons] at hle
        subst hc
        rw [List.replicate_succ]
        simp only [List.isPrefixOf, beq_self_eq_true, Bool.true_and]
        exact ih k hall (by omega)
      · rw [List.takeWhile_cons_of_neg hws] at hle
        simp at hle

theorem startsWithSpaces_of_le (s : String) (ci : Nat)
    (h : leadingAllSpaces s = true) (hle : ci ≤ indentOf s) :
    startsWithSpaces ci s = true :=
  sws_of_le_indent s.data ci h hle

theorem le_indent_of_sws :
    ∀ (l : List Char) (ci : Nat),
      (l.takeWhile isPyWs).all (fun c => c = ' ') = true →
      l.dropWhile isPyWs ≠ [] →
      List.isPrefixOf (List.replicate ci ' ') l = true →
      ci ≤ (l.takeWhile isPyWs).length := by
  intro l
  induction l with
  | nil => intro ci _ hnb _; simp at hnb
  | cons c rest ih =>
    intro ci hall hnb hpre
    cases ci with
    | zero => omega
    | succ k =>
      by_cases hws : isPyWs c = true
      · rw [List.takeWhile_cons_of_pos hws] at hall ⊢
        rw [List.dropWhile_cons_of_pos hws] at hnb
        simp only [List.all_cons, Bool.and_eq_true, decide_eq_true_eq] at hall
        obtain ⟨hc, hall⟩ := hall
        subst hc
        rw [List.replicate_succ] at hpre
        simp only [List.isPrefixOf, beq_self_eq_true, Bool.true_and] at hpre
        simp only [List.length_cons]
        have := ih k hall hnb hpre
        omega
      · rw [List.replicate_succ] at hpre
        simp only [List.isPrefixOf, Bool.and_eq_true, beq_iff_eq] at hpre
        obtain ⟨hc, -⟩ := hpre
        rw [← hc] at hws
        exact absurd (by decide : isPyWs ' ' = true) hws

theorem startsWithTab_eq_false (s : String) (h : leadingAllSpaces s = true) :
    startsWithTab s = false := by
  unfold startsWithTab
  cases hs : s.data with
  | nil => rfl
  | cons c rest =>
    by_cases hc : c = '\t'
    · subst hc
      exfalso
      unfold leadingAllSpaces at h
      rw [hs, List.takeWhile_cons_of_pos (by decide : isPyWs '\t' = true)] at h
      simp at h
    · simp [hc]

theorem keepLine_eq_not_stopLine (ci : Nat) (s : String)
    (h : leadingAllSpaces s = true) : keepLine ci s = !stopLine ci s := by
  by_cases hb : isBlank s = true
  · simp [keepLine, stopLine, hb]
  · have hb' : isBlank s = false := by simpa using hb
    have ht := startsWithTab_eq_false s h
    by_cases hle : ci ≤ indentOf s
    · have hsw := startsWithSpaces_of_le s ci h hle
      have hnl : ¬ indentOf s < ci := by omega
      simp [keepLine, stopLine, hb', hsw, ht, hnl]
    · have hsw : startsWithSpaces ci s = false := by
        by_contra hcon
        simp only [Bool.not_eq_false] at hcon
        have hnb := dropWhile_ne_nil_of_not_all s.data hb'
        have := le_indent_of_sws s.data ci h hnb hcon
        exact hle this
      have hl : indentOf s < ci := by omega
      simp [keepLine, stopLine, hb', hsw, ht, hl]

theorem collectBody_break_cond_of_keep (ci : Nat) (s : String)
    (h : keepLine ci s = true) :
    (!isBlank s && !startsWithSpaces ci s && !startsWithTab s) = false := by
  unfold keepLine at h
  cases h1 : isBlank s <;> cases h2 : startsWithSpaces ci s <;>
    cases h3 : startsWithTab s <;> simp_all

theorem collectBody_break_cond_of_not_keep (ci : Nat) (s : String)
    (h : keepLine ci s = false) :
    (!isBlank s && !startsWithSpaces ci s && !startsWithTab s) = true := by
  unfold keepLine at h
  cases h1 : isBlank s <;> cases h2 : startsWithSpaces ci s <;>
    cases h3 : startsWithTab s <;> simp_all

theorem discover_gap :
    ∀ (gap : List String) (i : Nat) (B : String) (rest : List String),
      (∀ g ∈ gap, isBlank g = true ∨ isCommentLine g = true) →
      isBlank B = false → isCommentLine B = false →
      discoverScan (enumFrom i (gap ++ B :: rest))
        = (mapRenderFrom i gap, some (indentOf B)) := by
  intro gap
  induction gap with
  | nil =>
    intro i B rest _ hB hBc
    simp only [List.nil_append, enumFrom, discoverScan, mapRenderFrom]
    rw [if_neg (by simp [hB, hBc])]
  | cons g gs ih =>
    intro i B rest hgap hB hBc
    have hg := hgap g (List.mem_cons_self _ _)
    have hcond : (isBlank g || isCommentLine g) = true := by
      rcases hg with h | h <;> simp [h]
    simp only [List.cons_append, enumFrom, discoverScan, List.append_eq]
    rw [if_pos hcond, ih (i+1) B rest (fun x hx => hgap x (List.mem_cons_of_mem _ hx)) hB hBc]
    simp [mapRenderFrom]

theorem collect_through :
    ∀ (gap : List String) (i ci : Nat) (tail : List String),
      (∀ g ∈ gap, keepLine ci g = true) →
      collectBody ci (enumFrom i (gap ++ tail))
        = mapRenderFrom i gap ++ collectBody ci (enumFrom (i + gap.length) tail) := by
  intro gap
  induction gap with
  | nil => intro i ci tail _; simp [mapRenderFrom, enumFrom]
  | cons g gs ih =>
    intro i ci tail hgap
    have hg := hgap g (List.mem_cons_self _ _)
    simp only [List.cons_append, enumFrom, collectBody, mapRenderFrom, List.append_eq]
    rw [if_neg (by rw [collectBody_break_cond_of_keep ci g hg]; simp)]
    rw [ih (i+1) ci tail (fun x hx => hgap x (List.mem_cons_of_mem _ hx))]
    simp only [List.cons_append, List.length_cons]
    rw [show i + (gs.length + 1) = (i + 1) + gs.length from by omega]

theorem fs_skip :
    ∀ (gap : List String) (ci i : Nat) (tail : List String),
      (∀ g ∈ gap, stopLine ci g = false) →
      firstStopIdx ci i (gap ++ tail) = firstStopIdx ci (i + gap.length) tail := by
  intro gap
  induction gap with
  | nil => intro ci i tail _; simp [firstStopIdx]
  | cons g gs ih =>
    intro ci i tail hgap
    have hg := hgap g (List.mem_cons_self _ _)
    simp only [List.cons_append, firstStopIdx, List.append_eq]
    rw [if_neg (by simp [hg])]
    rw [ih ci (i+1) tail (fun x hx => hgap x (List.mem_cons_of_mem _ hx))]
    congr 1
    simp only [List.length_cons]
    omega

theorem fs_bound :
    ∀ (l : List String) (ci i k : Nat),
      firstStopIdx ci i l = some k → i ≤ k ∧ k < i + l.length := by
  intro l
  induction l with
  | nil => intro ci i k h; simp [firstStopIdx] at h
  | cons s rest ih =>
    intro ci i k h
    simp only [firstStopIdx] at h
    split at h
    · injection h with h
      subst h
      simp only [List.length_cons]
      omega
    · have := ih ci (i+1) k h
      simp only [List.length_cons]
      omega

/-- The last context line named by the amended claim, as a function of the
stop search's outcome: the line immediately before the first stopping line, or
the file's last rendered line when no line stops, or the already-rendered line
`r` when the collection is empty. -/
def lastSpecAux (i : Nat) (l : List String) (r : String) : Option Nat → String
  | some k => if i < k then renderBody (k-1) (l.getD (k - i - 1) "") else r
  | none => if 0 < l.length then renderBody (i + l.length - 1) (l.getD (l.length - 1) "") else r

theorem last_collect :
    ∀ (l : List String) (i ci : Nat) (r : String),
      (∀ s ∈ l, leadingAllSpaces s = true) →
      (r :: collectBody ci (enumFrom i l)).getLast?
        = some (lastSpecAux i l r (firstStopIdx ci i l)) := by
  intro l
  induction l with
  | nil =>
    intro i ci r _
    simp [collectBody, enumFrom, firstStopIdx, lastSpecAux]
  | cons s rest ih =>
    intro i ci r hsp
    have hs := hsp s (List.mem_cons_self _ _)
    by_cases hstop : stopLine ci s = true
    · have hkeep : keepLine ci s = false := by
        rw [keepLine_eq_not_stopLine ci s hs, hstop]
        rfl
      simp only [enumFrom, collectBody]
      rw [if_pos (collectBody_break_cond_of_not_keep ci s hkeep)]
      simp only [firstStopIdx, if_pos hstop, lastSpecAux]
      simp
    · have hstop' : stopLine ci s = false := by simpa using hstop
      have hkeep : keepLine ci s = true := by
        rw [keepLine_eq_not_stopLine ci s hs, hstop']
        rfl
      simp only [enumFrom, collectBody]
      rw [if_neg (by rw [collectBody_break_cond_of_keep ci s hkeep]; simp)]
      rw [List.getLast?_cons_cons]
      rw [ih (i+1) ci (renderBody i s) (fun x hx => hsp x (List.mem_cons_of_mem _ hx))]
      simp only [firstStopIdx, if_neg (by simp [hstop'] : ¬ stopLine ci s = true)]
      cases hfs : firstStopIdx ci (i+1) rest with
      | some k =>
        have hb := fs_bound rest ci (i+1) k hfs
        simp only [lastSpecAux]
        rw [if_pos (by omega : i < k)]
        by_cases hik : i + 1 < k
        · rw [if_pos hik]
          have hidx : k - i - 1 = (k - i - 2) + 1 := by omega
          rw [hidx]
          rw [List.getD_cons_succ]
          have : k - (i + 1) - 1 = k - i - 2 := by omega
          rw [this]
        · rw [if_neg hik]
          have hk : k = i + 1 := by omega
          subst hk
          simp
      | none =>
        simp only [lastSpecAux, List.length_cons]
        rw [if_pos (by omega : 0 < rest.length + 1)]
        cases hrest : rest with
        | nil => simp
        | cons x xs =>
          simp only [List.length_cons]
          rw [if_pos (by omega : 0 < xs.length + 1)]
          rw [show xs.length + 1 + 1 - 1 = xs.length + 1 from by omega]
          rw [List.getD_cons_succ]
          rw [show i + 1 + (xs.length + 1) - 1 = i + (xs.length + 1 + 1) - 1 from by omega]
          rw [show xs.length + 1 - 1 = xs.length from by omega]

/-! ## Claim theorems -/

/-- C4: for both workspace-wide queries, the returned results list (the list
`goto_definition` wraps, built by `addUniqueLoop`, and the list
`goto_references` wraps, built by `refLoop`) has pairwise distinct
(file, line, column) keys, and equals the first-encounter subsequence of the
scanned entry stream in file-index scan order (for references, of the stream
with definition-matching keys dropped first, as the code's combined test
does). -/
theorem aggregation_results_nodup_first_encounter (o : Oracle) (sym : String) :
    addUniqueLoop [] [] (defStream o sym) = firstOccur (defStream o sym) ∧
    ((addUniqueLoop [] [] (defStream o sym)).map locKey).Nodup ∧
    refLoop (definitionKeys o sym) [] [] (refStream o sym)
      = firstOccur ((refStream o sym).filter
          (fun e => locKey e ∉ definitionKeys o sym)) ∧
    ((refLoop (definitionKeys o sym) [] [] (refStream o sym)).map locKey).Nodup := by
  have hfilter : ∀ s : List Entry, s.filter (fun e => locKey e ∉ ([] : List LocKey)) = s := by
    intro s
    apply List.filter_eq_self.mpr
    intro e _
    simp
  have h1 : addUniqueLoop [] [] (defStream o sym) = firstOccur (defStream o sym) := by
    have := addUniqueLoop_eq_firstOccur (defStream o sym).length (defStream o sym)
      (Nat.le_refl _) []
    rwa [hfilter] at this
  have h3 : refLoop (definitionKeys o sym) [] [] (refStream o sym)
      = firstOccur ((refStream o sym).filter
          (fun e => locKey e ∉ definitionKeys o sym)) := by
    rw [refLoop_eq_addUniqueLoop_filter]
    have := addUniqueLoop_eq_firstOccur
      ((refStream o sym).filter (fun e => locKey e ∉ definitionKeys o sym)).length
      ((refStream o sym).filter (fun e => locKey e ∉ definitionKeys o sym))
      (Nat.le_refl _) []
    rwa [hfilter] at this
  refine ⟨h1, ?_, h3, ?_⟩
  · rw [h1]
    exact firstOccur_keys_nodup _ _ (Nat.le_refl _)
  · rw [h3]
    exact firstOccur_keys_nodup _ _ (Nat.le_refl _)

/-- C3: against one workspace snapshot (one `Oracle`), no entry returned by
`goto_references` has a (file, line, column) key equal to the key of any entry
returned by `goto_definition`; the exclusion set is the key set of the complete
definition pass, which `goto_references` computes before its reference pass. -/
theorem goto_references_never_returns_definition_location
    (o : Oracle) (sym : String) (rs ds : List Entry) (e d : Entry)
    (hr : goto_references o sym = ApiResult.results rs) (he : e ∈ rs)
    (hd : goto_definition o sym = ApiResult.results ds) (hdm : d ∈ ds) :
    locKey e ≠ locKey d := by
  simp only [goto_references] at hr
  split at hr
  · exact absurd hr (by simp)
  · injection hr with hr
    subst hr
    simp only [goto_definition] at hd
    split at hd
    · exact absurd hd (by simp)
    · injection hd with hd
      subst hd
      have he' : locKey e ∉ definitionKeys o sym :=
        mem_refLoop_key_not_def _ _ _ _ _ (by intro x hx; simp at hx) he
      have hd' : d ∈ defStream o sym := by
        rcases mem_addUniqueLoop _ _ _ _ hdm with h | h
        · simp at h
        · exact h
      have hdk : locKey d ∈ definitionKeys o sym := List.mem_map_of_mem locKey hd'
      intro hEq
      rw [hEq] at he'
      exact he' hdk

/-- Concrete workspace snapshot for the C3 witness: one Python file, the
definition query answering one location and the reference query answering the
same location plus one other. -/
def c3Oracle : Oracle where
  fileIndex := [(".py", ["a.py"])]
  unquote := fun s => s
  relpath := fun _ => none
  relpathS := fun s => s
  fileLines := fun _ => Except.error "unreadable"
  defResponse := fun _ => some [RawLoc.loc "file:///w/a.py" 9 4]
  refResponse := fun _ => some [RawLoc.loc "file:///w/a.py" 9 4,
    RawLoc.loc "file:///w/b.py" 24 0]
  symResponse := fun _ => none

def c3DefEntry : Entry :=
  [("symbol", FieldVal.s "compute"), ("file", FieldVal.s "/w/a.py"),
   ("line", FieldVal.n 10), ("column", FieldVal.n 5),
   ("context", FieldVal.ls ["Error: unreadable"])]

def c3RefEntry : Entry :=
  [("symbol", FieldVal.s "compute"), ("file", FieldVal.s "/w/b.py"),
   ("line", FieldVal.n 25), ("column", FieldVal.n 1),
   ("context", FieldVal.ls ["Error: unreadable"])]

/-- C3 witness: on the concrete snapshot the reference query returns exactly
the non-definition location, and its key differs from the definition's. -/
theorem goto_references_never_returns_definition_location_witness :
    goto_references c3Oracle "compute" = ApiResult.results [c3RefEntry] ∧
    c3RefEntry ∈ [c3RefEntry] ∧
    goto_definition c3Oracle "compute" = ApiResult.results [c3DefEntry] ∧
    c3DefEntry ∈ [c3DefEntry] ∧
    locKey c3RefEntry ≠ locKey c3DefEntry :=
  ⟨by decide, by decide, by decide, by decide,
   goto_references_never_returns_definition_location c3Oracle "compute"
     [c3RefEntry] [c3DefEntry] c3RefEntry c3DefEntry
     (by decide) (by decide) (by decide) (by decide)⟩

/-- Concrete snapshot for C5: one Python file and one workspace-symbol reply. -/
def c5Oracle : Oracle where
  fileIndex := [(".py", ["a.py"])]
  unquote := fun s => s
  relpath := fun _ => none
  relpathS := fun s => s
  fileLines := fun _ => Except.error "E"
  defResponse := fun _ => none
  refResponse := fun _ => none
  symResponse := fun _ => some [⟨"compute", 12, "file:///w/a.py", 9⟩]

def c5SymEntry : Entry :=
  [("name", FieldVal.s "compute"), ("kind", FieldVal.s "function"),
   ("file", FieldVal.s "/w/a.py"), ("line", FieldVal.n 10)]

/-- C5 counterexample: a concrete `find_symbol` run returns an entry whose
keys are name, kind, file, line only — it carries neither a column nor context
lines (nor a `symbol` key), so the claim that every result of every public
operation carries symbol, file, line, column and context fails. -/
theorem find_symbol_results_lack_column_counterexample :
    find_symbol c5Oracle "compute" = ApiResult.results [c5SymEntry] ∧
    List.lookup "column" c5SymEntry = none ∧
    List.lookup "context" c5SymEntry = none ∧
    List.lookup "symbol" c5SymEntry = none ∧
    c5SymEntry.map Prod.fst = ["name", "kind", "file", "line"] := by
  refine ⟨by decide, by decide, by decide, by decide, by decide⟩

/-- C5 amended: every public operation returns a single results value or a
single error value (the `ApiResult` sum, mirroring the one-key dictionaries the
code builds — never both, never a mixture); each definition/reference result
carries symbol, file, 1-based line, 1-based column and rendered context lines;
each `find_symbol` result instead carries name, kind, file and 1-based line
only, with no column and no context. -/
theorem public_operation_result_shape (o : Oracle) (sym : String)
    (rs₁ rs₂ : List Entry) (locs : List RawLoc) (w : WorkspaceSymbol) :
    (find_symbol o sym = ApiResult.results rs₁ →
      ∀ e ∈ rs₁, e.map Prod.fst = ["name", "kind", "file", "line"]) ∧
    (process_locations o sym locs = ApiResult.results rs₂ →
      ∀ e ∈ rs₂, e.map Prod.fst = ["symbol", "file", "line", "column", "context"]) ∧
    (List.lookup "line" (processWorkspaceSymbol o w)
      = some (FieldVal.n ((w.line : Int) + 1))) ∧
    (∀ uri line ch,
      List.lookup "line" (mkLocEntry o sym uri line ch)
          = some (FieldVal.n ((line : Int) + 1)) ∧
      List.lookup "column" (mkLocEntry o sym uri line ch)
          = some (FieldVal.n ((ch : Int) + 1))) := by
  refine ⟨?_, ?_, ?_, ?_⟩
  · intro h e he
    simp only [find_symbol] at h
    split at h
    · exact absurd h (by simp)
    · injection h with h
      subst h
      rcases List.mem_flatMap.mp he with ⟨g, _, hg⟩
      split at hg
      · simp at hg
      · revert hg
        cases o.symResponse g.1 with
        | none => intro hg; simp at hg
        | some syms =>
          intro hg
          have hg' : e ∈ (if syms.isEmpty = true then []
              else List.map (processWorkspaceSymbol o) syms) := hg
          by_cases hempty : syms.isEmpty = true
          · rw [if_pos hempty] at hg'; simp at hg'
          · rw [if_neg hempty] at hg'
            rcases List.mem_map.mp hg' with ⟨ws, _, rfl⟩
            simp [processWorkspaceSymbol]
  · intro h e he
    simp only [process_locations] at h
    split at h
    · exact absurd h (by simp)
    · injection h with h
      subst h
      rcases List.mem_filterMap.mp he with ⟨r, _, hr⟩
      cases r with
      | loc uri line ch =>
        simp only [processLocation, Option.some.injEq] at hr
        subst hr
        simp [mkLocEntry]
      | link uri line ch =>
        simp only [processLocation, Option.some.injEq] at hr
        subst hr
        simp [mkLocEntry]
      | malformed => simp [processLocation] at hr
  · rfl
  · intro uri line ch
    exact ⟨rfl, rfl⟩

/-- C5 amended witness: concrete runs of the symbol and location paths with
the hypotheses discharged. -/
theorem public_operation_result_shape_witness :
    (∀ e ∈ [c5SymEntry], e.map Prod.fst = ["name", "kind", "file", "line"]) ∧
    (∀ e ∈ [c3DefEntry],
      e.map Prod.fst = ["symbol", "file", "line", "column", "context"]) :=
  ⟨(public_operation_result_shape c5Oracle "compute" [c5SymEntry] [c5SymEntry]
      [] ⟨"compute", 12, "file:///w/a.py", 9⟩).1 (by decide),
   (public_operation_result_shape c3Oracle "compute" [c3DefEntry] [c3DefEntry]
      [RawLoc.loc "file:///w/a.py" 9 4] ⟨"compute", 12, "file:///w/a.py", 9⟩).2.1
     (by decide)⟩

/-- C7 counterexample: on the line `xfoo; def foo():` the locator's `def` tier
matches, and the returned column is `line.find("foo") = 1` — an offset inside
`xfoo` where the symbol does not occur as a whole word (the first whole-word
occurrence is at offset 10) — refuting the claim that the column is the first
matching character offset of the tier match. -/
theorem find_symbol_position_column_counterexample :
    find_symbol_position "foo" ["xfoo; def foo():"] = some (0, 1) ∧
    wordMatchAt "foo".data "xfoo; def foo():".data 1 = false ∧
    wordMatchAt "foo".data "xfoo; def foo():".data 10 = true := by
  refine ⟨by decide, by decide, by decide⟩

/-- C7 amended: the locator returns the first line, in file order, matching
any of the three tiers (`def`-keyword, `class`-keyword, whole-word), and the
not-found outcome exactly when no line matches; the column is
`line.find(symbol)` — the first substring occurrence, not necessarily a
whole-word occurrence — for the two keyword tiers, and the leftmost whole-word
match start for the third tier. -/
theorem find_symbol_position_first_match (sym : String) (lines : List String) :
    (find_symbol_position sym lines = none ↔
      ∀ l ∈ lines, lineMatches sym l = false) ∧
    (∀ k c, find_symbol_position sym lines = some (k, c) →
      ∃ l, lines.get? k = some l ∧ lineMatches sym l = true ∧
        (∀ j, j < k → ∀ l', lines.get? j = some l' → lineMatches sym l' = false) ∧
        c = colFor sym l) := by
  have h := find_symbol_position_go_spec sym lines 0
  refine ⟨h.1, ?_⟩
  intro k c hs
  obtain ⟨_, l, hget, hm, hb, hc⟩ := h.2 k c hs
  exact ⟨l, by simpa using hget, hm, fun j hj => by simpa using hb j (by omega), hc⟩

/-- C7 amended witness: a file whose second line declares the symbol. -/
theorem find_symbol_position_first_match_witness :
    ∃ l, (["a = 1", "def foo(x):"] : List String).get? 1 = some l ∧
      lineMatches "foo" l = true ∧
      (∀ j, j < 1 → ∀ l',
        (["a = 1", "def foo(x):"] : List String).get? j = some l' →
          lineMatches "foo" l' = false) ∧
      (4 : Int) = colFor "foo" l :=
  (find_symbol_position_first_match "foo" ["a = 1", "def foo(x):"]).2 1 4 (by decide)

theorem get_symbol_context_decl_context (path : String) (lines : List String) (t : Nat)
    (hlen : t < lines.length)
    (hdecl : (containsSub "def " (lines.getD t "")
        || containsSub "class " (lines.getD t "")) = true) :
    (get_symbol_context path (Except.ok lines) ((t : Int) + 1)).context
      = renderDecl t (lines.getD t "") ::
          ((discoverScan (enumFrom (t+1) (lines.drop (t+1)))).1 ++
            Option.elim (discoverScan (enumFrom (t+1) (lines.drop (t+1)))).2 []
              (fun ci => collectBody ci (enumFrom (t+1) (lines.drop (t+1))))) := by
  have htn : ((t : Int) + 1 - 1).toNat = t := by omega
  simp only [get_symbol_context]
  rw [if_neg (by
    simp only [Bool.or_eq_true, decide_eq_true_eq, not_or, not_lt, not_le]
    constructor <;> omega)]
  rw [htn]
  rw [if_pos hdecl]
  cases hd2 : (discoverScan (enumFrom (t+1) (lines.drop (t+1)))).2 with
  | none => simp [Option.elim]
  | some ci => simp [Option.elim]

theorem getLast?_append_cons (pre : List String) (x : String) (l : List String) :
    (pre ++ x :: l).getLast? = (x :: l).getLast? := by
  rw [List.getLast?_append]
  cases h : (x :: l).getLast? with
  | none =>
    exfalso
    rw [List.getLast?_eq_none_iff] at h
    cases h
  | some z => rfl

/-- C8 counterexample: a declaration whose body is tab-indented with
indentations 2, then 3, then 1 — strictly increasing then decreasing.  The
first line strictly shallower than the first body line's indentation 2 is
`"\tc"` (indent 1), so the claim requires the block to end at the line before
it (`"\t\t\tb"`), yet the extractor includes `"\tc"` itself as the last context
line, because a tab-started line never triggers the break condition. -/
theorem get_symbol_context_tab_indent_counterexample :
    (get_symbol_context "f" (Except.ok ["def f():", "\t\ta", "\t\t\tb", "\tc", "d"]) 1).context
      = ["→ 1: def f():", "  2: \t\ta", "  3: \t\t\tb", "  4: \tc"] ∧
    indentOf "\t\ta" = 2 ∧ indentOf "\t\t\tb" = 3 ∧ indentOf "\tc" = 1 ∧
    isBlank "\tc" = false ∧
    (get_symbol_context "f" (Except.ok ["def f():", "\t\ta", "\t\t\tb", "\tc", "d"]) 1).context.getLast?
      = some (renderBody 3 "\tc") ∧
    renderBody 3 "\tc" ≠ renderBody 2 "\t\t\tb" := by
  refine ⟨by decide, by decide, by decide, by decide, by decide, by decide, by decide⟩

/-- C8 amended: when every line's leading whitespace is spaces only, the
target line contains `"def "` or `"class "`, and the lines between it and the
first non-blank non-comment body line `B` are blank or comments indented at
least as deep as `B`, the context block's last line is the rendering of the
line immediately before the first subsequent non-blank line whose indentation
is strictly shallower than `B`'s (the first body line's), or of the last line
of the file when no such line exists. -/
theorem get_symbol_context_body_block_end
    (path : String) (lines : List String) (t : Nat) (gap : List String)
    (B : String) (rest : List String)
    (hlen : t < lines.length)
    (hdecl : (containsSub "def " (lines.getD t "")
        || containsSub "class " (lines.getD t "")) = true)
    (hdrop : lines.drop (t+1) = gap ++ B :: rest)
    (hgap : ∀ g ∈ gap, isBlank g = true ∨
        (isCommentLine g = true ∧ indentOf B ≤ indentOf g))
    (hB : isBlank B = false) (hBc : isCommentLine B = false)
    (hsp : ∀ l ∈ lines, leadingAllSpaces l = true) :
    (get_symbol_context path (Except.ok lines) ((t : Int) + 1)).context.getLast?
      = some (match firstStopIdx (indentOf B) (t+1) (lines.drop (t+1)) with
          | some k => renderBody (k-1) (lines.getD (k-1) "")
          | none => renderBody (lines.length - 1) (lines.getD (lines.length - 1) "")) := by
  have hmemdrop : ∀ s, s ∈ gap ++ B :: rest → s ∈ lines := by
    intro s hs
    rw [← hdrop] at hs
    exact List.mem_of_mem_drop hs
  have hspBC : ∀ s ∈ B :: rest, leadingAllSpaces s = true := by
    intro s hs
    exact hsp s (hmemdrop s (List.mem_append_right _ hs))
  have hspgap : ∀ g ∈ gap, leadingAllSpaces g = true := by
    intro g hg
    exact hsp g (hmemdrop g (List.mem_append_left _ hg))
  have hgapBC : ∀ g ∈ gap, isBlank g = true ∨ isCommentLine g = true := by
    intro g hg
    rcases hgap g hg with h | h
    · exact Or.inl h
    · exact Or.inr h.1
  have hgapKeep : ∀ g ∈ gap, keepLine (indentOf B) g = true := by
    intro g hg
    rcases hgap g hg with h | h
    · simp [keepLine, h]
    · have hsw := startsWithSpaces_of_le g (indentOf B) (hspgap g hg) h.2
      simp [keepLine, hsw]
  have hgapNoStop : ∀ g ∈ gap, stopLine (indentOf B) g = false := by
    intro g hg
    rcases hgap g hg with h | h
    · simp [stopLine, h]
    · have : ¬ indentOf g < indentOf B := by omega
      simp [stopLine, this]
  have hBkeep : (!isBlank B && !startsWithSpaces (indentOf B) B
      && !startsWithTab B) = false := by
    apply collectBody_break_cond_of_keep
    have hsw := startsWithSpaces_of_le B (indentOf B) (hspBC B (List.mem_cons_self _ _))
      (Nat.le_refl _)
    simp [keepLine, hsw]
  have hBnoStop : stopLine (indentOf B) B = false := by
    simp [stopLine]
  have hdroplen : lines.drop (t+1) ≠ [] := by
    rw [hdrop]; simp
  have hi0 : t + 1 + gap.length < lines.length + 1 := by
    have := congrArg List.length hdrop
    simp only [List.length_drop, List.length_append, List.length_cons] at this
    omega
  have hBr : B :: rest = lines.drop (t + 1 + gap.length) := by
    have h1 : List.drop gap.length (List.drop (t+1) lines)
        = List.drop (t + 1 + gap.length) lines := List.drop_drop gap.length (t+1) lines
    rw [← h1, hdrop, List.drop_left]
  rw [get_symbol_context_decl_context path lines t hlen hdecl]
  rw [hdrop]
  rw [discover_gap gap (t+1) B rest hgapBC hB hBc]
  simp only [Option.elim]
  rw [collect_through gap (t+1) (indentOf B) (B :: rest) hgapKeep]
  rw [fs_skip gap (indentOf B) (t+1) (B :: rest) hgapNoStop]
  have hlast := last_collect (B :: rest) (t + 1 + gap.length) (indentOf B)
    (renderDecl t (lines.getD t "")) hspBC
  have hcons : collectBody (indentOf B) (enumFrom (t + 1 + gap.length) (B :: rest))
      = renderBody (t + 1 + gap.length) B ::
          collectBody (indentOf B) (enumFrom (t + 1 + gap.length + 1) rest) := by
    simp only [enumFrom, collectBody]
    rw [if_neg (by rw [hBkeep]; simp)]
  have hLHS :
      (renderDecl t (lines.getD t "") ::
        (mapRenderFrom (t+1) gap ++
          (mapRenderFrom (t+1) gap ++
            collectBody (indentOf B) (enumFrom (t + 1 + gap.length) (B :: rest))))).getLast?
      = (renderDecl t (lines.getD t "") ::
          collectBody (indentOf B) (enumFrom (t + 1 + gap.length) (B :: rest))).getLast? := by
    rw [hcons]
    rw [show renderDecl t (lines.getD t "") ::
        (mapRenderFrom (t+1) gap ++ (mapRenderFrom (t+1) gap ++
          (renderBody (t + 1 + gap.length) B ::
            collectBody (indentOf B) (enumFrom (t + 1 + gap.length + 1) rest))))
      = (renderDecl t (lines.getD t "") :: mapRenderFrom (t+1) gap ++ mapRenderFrom (t+1) gap)
          ++ (renderBody (t + 1 + gap.length) B ::
            collectBody (indentOf B) (enumFrom (t + 1 + gap.length + 1) rest)) from by
      simp]
    rw [getLast?_append_cons]
    rw [List.getLast?_cons_cons]
  rw [hLHS, hlast]
  have hfsB : firstStopIdx (indentOf B) (t + 1 + gap.length) (B :: rest)
      = firstStopIdx (indentOf B) (t + 1 + gap.length + 1) rest := by
    simp only [firstStopIdx]
    rw [if_neg (by simp [hBnoStop])]
  rw [hfsB] at hlast ⊢
  cases hfs : firstStopIdx (indentOf B) (t + 1 + gap.length + 1) rest with
  | some k =>
    have hb := fs_bound rest (indentOf B) (t + 1 + gap.length + 1) k hfs
    simp only [lastSpecAux]
    rw [if_pos (by omega : t + 1 + gap.length < k)]
    congr 1
    have hgd : (B :: rest).getD (k - (t + 1 + gap.length) - 1) "" = lines.getD (k-1) "" := by
      rw [hBr]
      simp only [List.getD_eq_getElem?_getD]
      rw [List.getElem?_drop]
      have hidx : t + 1 + gap.length + (k - (t + 1 + gap.length) - 1) = k - 1 := by omega
      rw [hidx]
    rw [hgd]
  | none =>
    simp only [lastSpecAux, List.length_cons]
    rw [if_pos (by omega : 0 < rest.length + 1)]
    have hlenBr : rest.length + 1 = lines.length - (t + 1 + gap.length) := by
      have := congrArg List.length hBr
      simp only [List.length_cons, List.length_drop] at this
      exact this
    congr 1
    congr 1
    · omega
    · rw [hBr]
      simp only [List.getD_eq_getElem?_getD]
      rw [List.getElem?_drop]
      have hidx : t + 1 + gap.length + (rest.length + 1 - 1) = lines.length - 1 := by omega
      rw [hidx]

/-- C8 amended witness: a space-indented declaration body with indentations
2, 4, 2, closed by a top-level line; the block ends at the line before it. -/
theorem get_symbol_context_body_block_end_witness :
    (get_symbol_context "f" (Except.ok ["def f():", "  a", "    b", "  c", "x = 1"]) 1).context.getLast?
      = some (match firstStopIdx (indentOf "  a") (0+1)
          ((["def f():", "  a", "    b", "  c", "x = 1"] : List String).drop (0+1)) with
        | some k => renderBody (k-1)
            ((["def f():", "  a", "    b", "  c", "x = 1"] : List String).getD (k-1) "")
        | none => renderBody ((["def f():", "  a", "    b", "  c", "x = 1"] : List String).length - 1)
            ((["def f():", "  a", "    b", "  c", "x = 1"] : List String).getD
              ((["def f():", "  a", "    b", "  c", "x = 1"] : List String).length - 1) "")) :=
  get_symbol_context_body_block_end "f" ["def f():", "  a", "    b", "  c", "x = 1"] 0 []
    "  a" ["    b", "  c", "x = 1"] (by decide) (by decide) (by decide)
    (by intro g hg; cases hg) (by decide) (by decide)
    (by intro l hl; fin_cases hl <;> decide)

theorem mem_mapRenderFrom :
    ∀ (l : List String) (i : Nat) (x : String), x ∈ mapRenderFrom i l →
      ∃ m s, x = renderBody m s ∧ i ≤ m := by
  intro l
  induction l with
  | nil => intro i x h; simp [mapRenderFrom] at h
  | cons g gs ih =>
    intro i x h
    simp only [mapRenderFrom, List.mem_cons] at h
    rcases h with rfl | h
    · exact ⟨i, g, rfl, Nat.le_refl i⟩
    · obtain ⟨m, s, rfl, hm⟩ := ih (i+1) x h
      exact ⟨m, s, rfl, by omega⟩

theorem mem_collectBody :
    ∀ (l : List String) (i ci : Nat) (x : String),
      x ∈ collectBody ci (enumFrom i l) → ∃ m s, x = renderBody m s ∧ i ≤ m := by
  intro l
  induction l with
  | nil => intro i ci x h; simp [collectBody, enumFrom] at h
  | cons g gs ih =>
    intro i ci x h
    simp only [enumFrom, collectBody] at h
    split at h
    · simp at h
    · simp only [List.mem_cons] at h
      rcases h with rfl | h
      · exact ⟨i, g, rfl, Nat.le_refl i⟩
      · obtain ⟨m, s, rfl, hm⟩ := ih (i+1) ci x h
        exact ⟨m, s, rfl, by omega⟩

theorem count_mapRenderFrom :
    ∀ (l : List String) (i0 i : Nat), i < l.length →
      (mapRenderFrom i0 l).count (renderBody (i0 + i) (l.getD i "")) = 1 := by
  intro l
  induction l with
  | nil => intro i0 i h; simp at h
  | cons g gs ih =>
    intro i0 i h
    cases i with
    | zero =>
      simp only [mapRenderFrom, List.getD_cons_zero, Nat.add_zero, List.count_cons]
      rw [beq_self_eq_true]
      have hz : (mapRenderFrom (i0+1) gs).count (renderBody i0 g) = 0 := by
        rw [List.count_eq_zero]
        intro hmem
        obtain ⟨m, s, heq, hm⟩ := mem_mapRenderFrom gs (i0+1) _ hmem
        have := renderBody_inj_idx m i0 s g heq.symm
        omega
      rw [hz]
      simp
    | succ j =>
      simp only [List.length_cons] at h
      simp only [mapRenderFrom, List.getD_cons_succ, List.count_cons]
      have hne : (renderBody i0 g == renderBody (i0 + (j+1)) (gs.getD j "")) = false := by
        simp only [beq_eq_false_iff_ne, ne_eq]
        intro hc
        have := renderBody_inj_idx i0 (i0 + (j+1)) g (gs.getD j "") hc
        omega
      rw [hne]
      have := ih (i0+1) j (by omega)
      rw [show i0 + (j + 1) = i0 + 1 + j from by omega]
      simp only [this]
      simp

/-- C10 counterexample: the comment line `" \t#x"` (mixed space-tab leading
whitespace, indentation 2, at least as deep as the first body line `"  a"`)
lies between the declaration and the first body line, but it appears exactly
once in the returned context, not twice: the body-collection scan breaks at it
because it starts neither with `"  "` nor with a tab. -/
theorem get_symbol_context_gap_line_once_counterexample :
    (get_symbol_context "f" (Except.ok ["def f():", " \t#x", "  a", "b"]) 1).context
      = ["→ 1: def f():", renderBody 1 " \t#x"] ∧
    isCommentLine " \t#x" = true ∧ indentOf " \t#x" = 2 ∧ indentOf "  a" = 2 ∧
    isBlank "  a" = false ∧ isCommentLine "  a" = false ∧
    ((get_symbol_context "f" (Except.ok ["def f():", " \t#x", "  a", "b"]) 1).context).count
        (renderBody 1 " \t#x") = 1 := by
  refine ⟨by decide, by decide, by decide, by decide, by decide, by decide, by decide⟩

/-- C10 amended: when every line strictly between the declaration and the
first non-blank non-comment body line `B` is blank, or is a comment whose
leading whitespace is spaces only and whose indentation is at least `B`'s,
each such line's rendering appears exactly twice in the returned context list:
once appended by the indentation-discovery scan and once again by the
body-collection scan that restarts at the line after the declaration. -/
theorem get_symbol_context_gap_line_twice
    (path : String) (lines : List String) (t : Nat) (gap : List String)
    (B : String) (rest : List String)
    (hlen : t < lines.length)
    (hdecl : (containsSub "def " (lines.getD t "")
        || containsSub "class " (lines.getD t "")) = true)
    (hdrop : lines.drop (t+1) = gap ++ B :: rest)
    (hgap : ∀ g ∈ gap, isBlank g = true ∨
        (isCommentLine g = true ∧ leadingAllSpaces g = true ∧ indentOf B ≤ indentOf g))
    (hB : isBlank B = false) (hBc : isCommentLine B = false)
    (i : Nat) (hi : i < gap.length) :
    ((get_symbol_context path (Except.ok lines) ((t : Int) + 1)).context).count
        (renderBody (t + 1 + i) (gap.getD i "")) = 2 := by
  have hgapBC : ∀ g ∈ gap, isBlank g = true ∨ isCommentLine g = true := by
    intro g hg
    rcases hgap g hg with h | h
    · exact Or.inl h
    · exact Or.inr h.1
  have hgapKeep : ∀ g ∈ gap, keepLine (indentOf B) g = true := by
    intro g hg
    rcases hgap g hg with h | h
    · simp [keepLine, h]
    · have hsw := startsWithSpaces_of_le g (indentOf B) h.2.1 h.2.2
      simp [keepLine, hsw]
  rw [get_symbol_context_decl_context path lines t hlen hdecl]
  rw [hdrop]
  rw [discover_gap gap (t+1) B rest hgapBC hB hBc]
  simp only [Option.elim]
  rw [collect_through gap (t+1) (indentOf B) (B :: rest) hgapKeep]
  rw [List.count_cons, List.count_append, List.count_append]
  have hD : (mapRenderFrom (t+1) gap).count (renderBody (t + 1 + i) (gap.getD i "")) = 1 := by
    have := count_mapRenderFrom gap (t+1) i hi
    rwa [show t + 1 + i = t + 1 + i from rfl] at this
  have hC : (collectBody (indentOf B) (enumFrom (t + 1 + gap.length) (B :: rest))).count
      (renderBody (t + 1 + i) (gap.getD i "")) = 0 := by
    rw [List.count_eq_zero]
    intro hmem
    obtain ⟨m, s, heq, hm⟩ := mem_collectBody (B :: rest) (t + 1 + gap.length) (indentOf B) _ hmem
    have := renderBody_inj_idx (t + 1 + i) m (gap.getD i "") s heq
    omega
  have hne : (renderDecl t (lines.getD t "") == renderBody (t + 1 + i) (gap.getD i "")) = false := by
    simp only [beq_eq_false_iff_ne, ne_eq]
    exact renderDecl_ne_renderBody _ _ _ _
  rw [hD, hC, hne]
  simp

/-- C10 amended witness: a declaration followed by a blank line and a
space-indented comment before the first body line; the comment's rendering
appears exactly twice. -/
theorem get_symbol_context_gap_line_twice_witness :
    ((get_symbol_context "f" (Except.ok ["def f():", "", "  # note", "  a", "x"]) 1).context).count
        (renderBody (0 + 1 + 1) ((["", "  # note"] : List String).getD 1 "")) = 2 :=
  get_symbol_context_gap_line_twice "f" ["def f():", "", "  # note", "  a", "x"] 0
    ["", "  # note"] "  a" ["x"] (by decide) (by decide) (by decide)
    (by intro g hg; fin_cases hg
        · exact Or.inl (by decide)
        · exact Or.inr ⟨by decide, by decide, by decide⟩)
    (by decide) (by decide) 1 (by decide)

/-- C9: for a line number outside the file's 1-based range,
`get_symbol_context` returns a structured result whose context is the single
out-of-range diagnostic line, and a file-read failure yields the single
`Error:` diagnostic line; the embedding is a total function, so no fault
propagates. -/
theorem get_symbol_context_out_of_range_diagnostic
    (path : String) (lines : List String) (line : Int) (msg : String)
    (h : line < 1 ∨ (lines.length : Int) < line) :
    (get_symbol_context path (Except.ok lines) line).context = [outOfRangeMsg line] ∧
    (get_symbol_context path (Except.ok lines) line).context.length = 1 ∧
    (get_symbol_context path (Except.error msg) line).context = ["Error: " ++ msg] ∧
    (get_symbol_context path (Except.error msg) line).context.length = 1 := by
  have hp : line < 1 ∨ (lines.length : Int) ≤ line - 1 := by omega
  refine ⟨?_, ?_, rfl, rfl⟩
  · simp [get_symbol_context]
    rw [if_pos hp]
  · simp [get_symbol_context]
    rw [if_pos hp]
    rfl

/-- C9 witness: the spec's own scenario, `getContext(file, 5)` on a 3-line
file. -/
theorem get_symbol_context_out_of_range_witness :
    ((5 : Int) < 1 ∨ (((["a", "b", "c"] : List String).length : Int) < 5)) ∧
    ((get_symbol_context "f" (Except.ok ["a", "b", "c"]) 5).context
      = [outOfRangeMsg 5] ∧
     (get_symbol_context "f" (Except.ok ["a", "b", "c"]) 5).context.length = 1 ∧
     (get_symbol_context "f" (Except.error "boom") 5).context = ["Error: " ++ "boom"] ∧
     (get_symbol_context "f" (Except.error "boom") 5).context.length = 1) :=
  ⟨by decide,
   get_symbol_context_out_of_range_diagnostic "f" ["a", "b", "c"] 5 "boom" (by decide)⟩

/-- C1: for every JSON-RPC message the connection writes, the Content-Length
header value (`len(content)` for `content = json.dumps(message)`) equals the
byte length of the UTF-8 encoding of the JSON body that is written; with
`ensure_ascii` serialization every body character is ASCII, so the two counts
coincide — in particular for messages whose payload strings carry non-ASCII
text, which the serializer escapes to `\uxxxx` form. -/
theorem sendMessage_header_eq_utf8_byte_length (msg : JValue) :
    sendMessageHeaderValue msg = sendMessageBodyByteCount msg := by
  unfold sendMessageHeaderValue sendMessageBodyByteCount
  exact (utf8Len_eq_length_of_ascii _ (dumpsVal_ascii msg)).symm

/-- C2 counterexample: with the inbound buffer holding a non-matching message
(id 1) in front of the matching response (id 2), the polling pass of
`_send_request` returns the match but leaves the buffer empty — the drained
non-matching message is discarded, contradicting the claim that buffered
non-matching messages drained before the match are preserved. -/
theorem sendRequestPass_discards_drained_counterexample :
    sendRequestPass 2 [⟨some 1, "notification"⟩, ⟨some 2, "response"⟩]
        = (some ⟨some 2, "response"⟩, []) ∧
    (⟨some 1, "notification"⟩ : RpcMsg)
        ∉ (sendRequestPass 2 [⟨some 1, "notification"⟩, ⟨some 2, "response"⟩]).2 := by
  constructor <;> decide

/-- C2 amended: a polling pass that finds no matching message re-enqueues every
drained message in order (the buffer is preserved); a pass that finds the
matching response keeps exactly the messages buffered after it, and the
non-matching messages drained before it are discarded. -/
theorem sendRequestPass_preservation (rid : Nat) (q pre post : List RpcMsg) (m : RpcMsg)
    (hq : ∀ x ∈ q, x.id ≠ some rid)
    (hpre : ∀ x ∈ pre, x.id ≠ some rid)
    (hm : m.id = some rid) :
    sendRequestPass rid q = (none, q) ∧
    sendRequestPass rid (pre ++ m :: post) = (some m, post) := by
  constructor
  · simpa using drainPass_no_match rid q [] hq
  · exact drainPass_match rid m hm pre post [] hpre

/-- C2 amended witness: a concrete pass with one stale notification before the
matching response and one message after it. -/
theorem sendRequestPass_preservation_witness :
    (∀ x ∈ [(⟨some 7, "stale"⟩ : RpcMsg)], x.id ≠ some 3) ∧
    (∀ x ∈ [(⟨none, "diag"⟩ : RpcMsg)], x.id ≠ some 3) ∧
    (⟨some 3, "resp"⟩ : RpcMsg).id = some 3 ∧
    (sendRequestPass 3 [⟨some 7, "stale"⟩] = (none, [⟨some 7, "stale"⟩]) ∧
     sendRequestPass 3 ([⟨none, "diag"⟩] ++ ⟨some 3, "resp"⟩ :: [⟨some 8, "later"⟩])
        = (some ⟨some 3, "resp"⟩, [⟨some 8, "later"⟩])) :=
  ⟨by decide, by decide, by decide,
   sendRequestPass_preservation 3 [⟨some 7, "stale"⟩] [⟨none, "diag"⟩]
     [⟨some 8, "later"⟩] ⟨some 3, "resp"⟩ (by decide) (by decide) (by decide)⟩

/-- C6 counterexample: a document URI is announced once; after `shutdown` the
`open_documents` set still contains it (it is not cleared), so a replacement
connection's `open_document` call for the same URI sends no didOpen
notification — the claim's clearing/re-announcement behaviour fails. -/
theorem open_document_no_reannounce_counterexample :
    open_document [] "file:///w/a.py" true = (["file:///w/a.py"], true) ∧
    lsp_shutdown ["file:///w/a.py"] = ["file:///w/a.py"] ∧
    (open_document (lsp_shutdown (open_document [] "file:///w/a.py" true).1)
        "file:///w/a.py" true).2 = false := by
  refine ⟨by decide, rfl, by decide⟩

/-- C6 amended: over any sequence of `open_document` and `shutdown` events
starting from the service's empty open-document set, the didOpen notification
for a given URI is sent at most once in the whole service lifetime — the set is
never cleared, so a replacement connection does not re-announce. -/
theorem didOpen_at_most_once (evts : List DocEvent) (uri : String) :
    ((runDocEvents [] evts).2.count uri) ≤ 1 :=
  runDocEvents_count_le_one uri evts []

end LangNav
